import Mathlib

/-!
# Percentage: `pkg/plugin/sdk/unit/percentage.go`

A shallow embedding of the `Percentage` value type of package `unit` and of the
standard-library routines its four methods call (`strconv.FormatInt`,
`strconv.ParseInt`, `strings.Trim`, `strings.HasSuffix`, `strings.TrimSuffix`,
`json.Marshal` on a string, `fmt.Errorf` with `%w`), the latter following the Go 1.24
sources, specialised to the arguments passed here (base 10, bit size 64, a cutset of
one ASCII byte, the double quote).

Conventions.
* A Go `string` / `[]byte` is a `List Byte` (`Byte = UInt8`).
* Go's `int64` and `uint64` are `Int` / `Nat` with explicit wrap-around.
* Go's `int` and `uint` are `intSize` bits wide (`strconv.IntSize`, 32 or 64 depending on
  the platform); functions whose code depends on that width take `intSize` as an argument.
* A Go function returning `(value, error)` returns a pair whose second component is
  an `Option`; a method with a pointer receiver takes the old target and returns the
  new target.
* An error value keeps its parts (`fmt.wrapError`: the text of the format and the wrapped
  error); its message is rendered by `Error`. The Unicode tables that `strconv.Quote`
  consults for runes above U+00FF are an argument, `isPrintWide`.
-/

namespace Pipecd

/-- A byte of a Go `string` or `[]byte`. -/
abbrev Byte := UInt8

/-- The bytes of an ASCII string literal. -/
def ascii (s : String) : List Byte := s.toList.map (fun c => UInt8.ofNat c.toNat)

/-- Two's-complement conversion to a signed integer of `bits` bits: Go's `int64(x)`, `int(x)`. -/
def wrapSigned (bits : Nat) (x : Int) : Int :=
  (x + 2 ^ (bits - 1)) % 2 ^ bits - 2 ^ (bits - 1)

/-- The values of a signed integer type of `bits` bits. -/
def inSigned (bits : Nat) (x : Int) : Prop :=
  -(2 ^ (bits - 1)) ≤ x ∧ x < 2 ^ (bits - 1)

instance (bits : Nat) (x : Int) : Decidable (inSigned bits x) := by
  unfold inSigned; exact inferInstance

/-! ## package strings -/

/-- `strings.trimLeftByte`: `for len(s) > 0 && s[0] == c { s = s[1:] }`. -/
def strings.trimLeftByte : List Byte → Byte → List Byte
  | [], _ => []
  | b :: s, c => if b = c then strings.trimLeftByte s c else b :: s

/-- `strings.trimRightByte`: `for len(s) > 0 && s[len(s)-1] == c { s = s[:len(s)-1] }`. -/
def strings.trimRightByte : List Byte → Byte → List Byte
  | [], _ => []
  | b :: s, c =>
    match strings.trimRightByte s c with
    | [] => if b = c then [] else [b]
    | t => b :: t

/-- `strings.Trim(s, cutset)` for a cutset that is one ASCII byte `c` (here the double quote):
`trimLeftByte(trimRightByte(s, c), c)`. -/
def strings.Trim (s : List Byte) (c : Byte) : List Byte :=
  strings.trimLeftByte (strings.trimRightByte s c) c

/-- `strings.HasSuffix`: `len(s) >= len(suffix) && s[len(s)-len(suffix):] == suffix`. -/
def strings.HasSuffix (s suffix : List Byte) : Bool :=
  decide (suffix.length ≤ s.length) && (s.drop (s.length - suffix.length) == suffix)

/-- `strings.TrimSuffix`: `s[:len(s)-len(suffix)]` when `HasSuffix(s, suffix)`, else `s`. -/
def strings.TrimSuffix (s suffix : List Byte) : List Byte :=
  if strings.HasSuffix s suffix then s.take (s.length - suffix.length) else s

/-! ## package strconv -/

/-- The two sentinel errors of `strconv`: `ErrRange` ("value out of range") and
`ErrSyntax` ("invalid syntax"). -/
inductive strconv.Sentinel where
  | ErrRange
  | ErrSyntax
  deriving DecidableEq, Repr

/-- `strconv.NumError`: the failing function, the input text, and the reason. -/
structure strconv.NumError where
  Func : String
  Num : List Byte
  Err : strconv.Sentinel
  deriving DecidableEq, Repr

/-- `strconv.syntaxError(fn, str)`. -/
def strconv.syntaxError (fn : String) (str : List Byte) : strconv.NumError :=
  { Func := fn, Num := str, Err := strconv.Sentinel.ErrSyntax }

/-- `strconv.rangeError(fn, str)`. -/
def strconv.rangeError (fn : String) (str : List Byte) : strconv.NumError :=
  { Func := fn, Num := str, Err := strconv.Sentinel.ErrRange }

/-- `strconv.digits`. -/
def strconv.digits : List Byte := ascii "0123456789abcdefghijklmnopqrstuvwxyz"

/-- `strconv.smallsString`: the two-digit renderings of 0..99. -/
def strconv.smallsString : List Byte := ascii (
  "00010203040506070809" ++
  "10111213141516171819" ++
  "20212223242526272829" ++
  "30313233343536373839" ++
  "40414243444546474849" ++
  "50515253545556575859" ++
  "60616263646566676869" ++
  "70717273747576777879" ++
  "80818283848586878889" ++
  "90919293949596979899")

/-- `strconv.nSmalls`. -/
def strconv.nSmalls : Int := 100

/-- `strconv.small(i)`: `digits[i : i+1]` below 10, else `smallsString[i*2 : i*2+2]`. -/
def strconv.small (i : Nat) : List Byte :=
  if i < 10 then (strconv.digits.drop i).take 1
  else (strconv.smallsString.drop (i * 2)).take 2

/-- The base-10 loop of `strconv.formatBits`,
`for us >= 100 { is := us % 100 * 2; us /= 100; i -= 2; a[i+1] = smallsString[is+1]; a[i] = smallsString[is] }`.
The second argument is `us`, the third the filled tail `a[i:]` of the buffer. The first
argument bounds the iterations: each one fills two of the 65 bytes of the buffer `a`.
Returns the final `us` and the filled tail. -/
def strconv.formatBitsLoop : Nat → Nat → List Byte → Nat × List Byte
  | 0, us, a => (us, a)
  | fuel + 1, us, a =>
    if us ≥ 100 then
      let is := us % 100 * 2
      strconv.formatBitsLoop fuel (us / 100)
        (strconv.smallsString.getD is 0 :: strconv.smallsString.getD (is + 1) 0 :: a)
    else (us, a)

/-- `strconv.host32bit`: `bits.UintSize == 32`. -/
def strconv.host32bit (intSize : Nat) : Bool := intSize == 32

/-- The inner loop of the 32-bit branch of `strconv.formatBits`,
`for j := 4; j > 0; j-- { is := us % 100 * 2; us /= 100; i -= 2; a[i+1] = smallsString[is+1]; a[i] = smallsString[is] }`.
The first argument is `j`. -/
def strconv.formatBitsInner : Nat → Nat → List Byte → Nat × List Byte
  | 0, us, a => (us, a)
  | j + 1, us, a =>
    let is := us % 100 * 2
    strconv.formatBitsInner j (us / 100)
      (strconv.smallsString.getD is 0 :: strconv.smallsString.getD (is + 1) 0 :: a)

/-- The loop of `strconv.formatBits` taken on 32-bit hosts, `for u >= 1e9 { ... }`: it renders
the low nine digits of `u` and goes on with `u / 1e9`. The first argument bounds the iterations:
each one fills nine of the 65 bytes of the buffer `a`. -/
def strconv.formatBits32Loop : Nat → Nat → List Byte → Nat × List Byte
  | 0, u, a => (u, a)
  | fuel + 1, u, a =>
    if u ≥ 1000000000 then
      let q := u / 1000000000
      -- u % 1e9 fits into a uint
      let us := u - q * 1000000000
      match strconv.formatBitsInner 4 us a with
      | (us, a) =>
        -- us < 10, since it contains the last digit from the initial 9-digit us
        strconv.formatBits32Loop fuel q (strconv.smallsString.getD (us * 2 + 1) 0 :: a)
    else (u, a)

/-- `strconv.formatBits(nil, u, 10, neg, false)`: the base-10 branch. `u` is a `uint64`;
`host32bit` tells whether `uint` is 32 bits wide. -/
def strconv.formatBits (host32bit : Bool) (u : Nat) (neg : Bool) : List Byte :=
  -- if neg { u = -u }
  let u := if neg then (2 ^ 64 - u) % 2 ^ 64 else u
  -- if host32bit { convert the lower digits using 32bit operations }
  match (if host32bit then strconv.formatBits32Loop 7 u [] else (u, [])) with
  | (u, a) =>
    -- u guaranteed to fit into a uint
    match strconv.formatBitsLoop 32 u a with
    | (us, a) =>
      -- us < 100
      let is := us * 2
      let a := strconv.smallsString.getD (is + 1) 0 :: a
      let a := if us ≥ 10 then strconv.smallsString.getD is 0 :: a else a
      -- add sign, if any
      if neg then 45 :: a else a

/-- `strconv.FormatInt(i, 10)` for an `int64` `i`, on a host whose `int` has `intSize` bits. -/
def strconv.FormatInt (intSize : Nat) (i : Int) : List Byte :=
  if 0 ≤ i ∧ i < strconv.nSmalls then strconv.small i.toNat
  else strconv.formatBits (strconv.host32bit intSize) (i % 2 ^ 64).toNat (decide (i < 0))

/-- `strconv.lower(c)`: `c | ('x' - 'X')`. -/
def strconv.lower (c : Byte) : Nat := c.toNat ||| 32

/-- `strconv.maxUint64`. -/
def strconv.maxUint64 : Nat := 2 ^ 64 - 1

/-- The digit loop of `strconv.ParseUint(s, 10, 64)` over the remaining bytes, with the
accumulator `n` (a `uint64`); `s0` is the whole input, kept for the error value. -/
def strconv.parseUintLoop (s0 : List Byte) : List Byte → Nat → Nat × Option strconv.NumError
  | [], n => (n, none)
  | c :: s, n =>
    let d : Option Nat :=
      if 48 ≤ c.toNat ∧ c.toNat ≤ 57 then some (c.toNat - 48)
      else if 97 ≤ strconv.lower c ∧ strconv.lower c ≤ 122 then some (strconv.lower c - 97 + 10)
      else none
    match d with
    | none => (0, some (strconv.syntaxError "ParseUint" s0))
    | some d =>
      if d ≥ 10 then (0, some (strconv.syntaxError "ParseUint" s0))
      else if n ≥ strconv.maxUint64 / 10 + 1 then
        -- n*base overflows
        (strconv.maxUint64, some (strconv.rangeError "ParseUint" s0))
      else
        let n := n * 10 % 2 ^ 64
        let n1 := (n + d) % 2 ^ 64
        if n1 < n ∨ n1 > strconv.maxUint64 then
          -- n+d overflows
          (strconv.maxUint64, some (strconv.rangeError "ParseUint" s0))
        else strconv.parseUintLoop s0 s n1

/-- `strconv.ParseUint(s, 10, 64)`. -/
def strconv.ParseUint (s : List Byte) : Nat × Option strconv.NumError :=
  if s = [] then (0, some (strconv.syntaxError "ParseUint" s))
  else strconv.parseUintLoop s s 0

/-- `strconv.ParseInt(s, 10, 64)`. -/
def strconv.ParseInt (s : List Byte) : Int × Option strconv.NumError :=
  match s with
  | [] => (0, some (strconv.syntaxError "ParseInt" s))
  | c :: t =>
    let s0 := s
    -- Pick off leading sign.
    let (neg, s) : Bool × List Byte :=
      if c = 43 then (false, t) else if c = 45 then (true, t) else (false, s)
    -- Convert unsigned and check range.
    match strconv.ParseUint s with
    | (un, err) =>
      if err.isSome ∧ err.map (fun e => e.Err) ≠ some strconv.Sentinel.ErrRange then
        (0, err.map (fun e => { e with Func := "ParseInt", Num := s0 }))
      else
        let cutoff : Nat := 2 ^ 63
        if !neg ∧ un ≥ cutoff then
          ((cutoff : Int) - 1, some (strconv.rangeError "ParseInt" s0))
        else if neg ∧ un > cutoff then
          (-(cutoff : Int), some (strconv.rangeError "ParseInt" s0))
        else
          let n := wrapSigned 64 un
          let n := if neg then wrapSigned 64 (-n) else n
          (n, none)

/-! ## package fmt -/

/-- The error built by `fmt.Errorf` from a format of the shape `text%w`: the literal text of
the format and the wrapped error (`Unwrap` returns `err`; the message is `text` followed by
the message of `err`). -/
structure fmt.wrapError where
  text : List Byte
  err : strconv.NumError
  deriving DecidableEq, Repr

/-! ## package encoding/json -/

/-- `json.hex`. -/
def json.hex : List Byte := ascii "0123456789abcdef"

/-- `json.htmlSafeSet[b]` for an ASCII byte: the printable bytes and DEL, except the double
quote, `&`, `<`, `>` and the backslash. -/
def json.htmlSafeSet (b : Byte) : Bool :=
  decide (32 ≤ b.toNat ∧ b.toNat < 128) &&
    !(b = 34 || b = 38 || b = 60 || b = 62 || b = 92)

/-- `utf8.RuneError`. -/
def utf8.RuneError : Nat := 0xFFFD

/-- `utf8.first[s0]` with `utf8.acceptRanges`, for a non-ASCII lead byte: the length of the
sequence and the accepted range of the second byte; `none` for an invalid lead byte. -/
def utf8.first (s0 : Nat) : Option (Nat × Nat × Nat) :=
  if s0 < 0xC2 then none
  else if s0 ≤ 0xDF then some (2, 0x80, 0xBF)
  else if s0 = 0xE0 then some (3, 0xA0, 0xBF)
  else if s0 = 0xED then some (3, 0x80, 0x9F)
  else if s0 ≤ 0xEF then some (3, 0x80, 0xBF)
  else if s0 = 0xF0 then some (4, 0x90, 0xBF)
  else if s0 ≤ 0xF3 then some (4, 0x80, 0xBF)
  else if s0 = 0xF4 then some (4, 0x80, 0x8F)
  else none

/-- `utf8.DecodeRuneInString`: the first rune of `s` and its width in bytes. -/
def utf8.DecodeRuneInString (s : List Byte) : Nat × Nat :=
  match s with
  | [] => (utf8.RuneError, 0)
  | b :: t =>
    let s0 := b.toNat
    if s0 < 0x80 then (s0, 1)
    else
      match utf8.first s0 with
      | none => (utf8.RuneError, 1)
      | some (sz, lo, hi) =>
        if s.length < sz then (utf8.RuneError, 1)
        else
          let s1 := (t.getD 0 0).toNat
          if s1 < lo ∨ hi < s1 then (utf8.RuneError, 1)
          else if sz ≤ 2 then (((s0 &&& 0x1F) <<< 6) ||| (s1 &&& 0x3F), 2)
          else
            let s2 := (t.getD 1 0).toNat
            if s2 < 0x80 ∨ 0xBF < s2 then (utf8.RuneError, 1)
            else if sz ≤ 3 then
              (((s0 &&& 0x0F) <<< 12) ||| ((s1 &&& 0x3F) <<< 6) ||| (s2 &&& 0x3F), 3)
            else
              let s3 := (t.getD 2 0).toNat
              if s3 < 0x80 ∨ 0xBF < s3 then (utf8.RuneError, 1)
              else
                (((s0 &&& 0x07) <<< 18) ||| ((s1 &&& 0x3F) <<< 12) ||| ((s2 &&& 0x3F) <<< 6)
                  ||| (s3 &&& 0x3F), 4)

/-- The escape written by `json.appendString` for an ASCII byte outside `htmlSafeSet`. -/
def json.escapeByte (b : Byte) : List Byte :=
  if b = 92 ∨ b = 34 then [92, b]
  else if b = 8 then [92, 98]
  else if b = 12 then [92, 102]
  else if b = 10 then [92, 110]
  else if b = 13 then [92, 114]
  else if b = 9 then [92, 116]
  else [92, 117, 48, 48, json.hex.getD (b.toNat >>> 4) 0, json.hex.getD (b.toNat &&& 0xF) 0]

/-- The loop of `json.appendString(dst, src, true)` from index `i` on, as the bytes it
contributes to the output. `src` is the text from `i`; `skip` counts the bytes of a rune
already decoded that are still ahead (copied unchanged when `copy`, dropped otherwise). -/
def json.appendStringLoop : Nat → Bool → List Byte → List Byte
  | _, _, [] => []
  | skip + 1, copy, b :: src =>
    if copy then b :: json.appendStringLoop skip copy src
    else json.appendStringLoop skip copy src
  | 0, _, b :: src =>
    if b.toNat < 0x80 then
      if json.htmlSafeSet b then b :: json.appendStringLoop 0 true src
      else json.escapeByte b ++ json.appendStringLoop 0 true src
    else
      match utf8.DecodeRuneInString ((b :: src).take 4) with
      | (c, size) =>
        if c = utf8.RuneError ∧ size = 1 then
          ascii "\\ufffd" ++ json.appendStringLoop 0 true src
        else if c = 0x2028 ∨ c = 0x2029 then
          ascii "\\u202" ++ json.hex.getD (c &&& 0xF) 0 :: json.appendStringLoop (size - 1) false src
        else b :: json.appendStringLoop (size - 1) true src

/-- `json.appendString(nil, src, true)`: the quoted, escaped JSON string. -/
def json.appendString (src : List Byte) : List Byte :=
  34 :: json.appendStringLoop 0 true src ++ [34]

/-- `json.Marshal(v)` for a `v` of type `string`: always succeeds. -/
def json.Marshal (v : List Byte) : List Byte × Option fmt.wrapError :=
  (json.appendString v, none)

/-! ## package unit -/

/-- `Percentage`: the numeric value (a Go `int`) and whether the text carried a `%`. -/
structure Percentage where
  Number : Int
  HasSuffix : Bool
  deriving DecidableEq, Repr

/-- `func (p Percentage) String() string`. -/
def Percentage.String (intSize : Nat) (p : Percentage) : List Byte :=
  let s := strconv.FormatInt intSize (wrapSigned 64 p.Number)
  if p.HasSuffix then s ++ ascii "%" else s

/-- `func (p Percentage) Int() int`. -/
def Percentage.Int (p : Percentage) : Int := p.Number

/-- `func (p Percentage) MarshalJSON() ([]byte, error)`. -/
def Percentage.MarshalJSON (intSize : Nat) (p : Percentage) :
    List Byte × Option fmt.wrapError :=
  json.Marshal (p.String intSize)

/-- `fmt.Errorf("invalid percentage: %w", err)`. -/
def fmt.Errorf (err : strconv.NumError) : fmt.wrapError :=
  { text := ascii "invalid percentage: ", err := err }

/-- `func (p *Percentage) UnmarshalJSON(b []byte) error`: from the old target `p` and the
token `b`, the new target and the returned error. `intSize` is the width of `int`. -/
def Percentage.UnmarshalJSON (intSize : Nat) (p : Percentage) (b : List Byte) :
    Percentage × Option fmt.wrapError :=
  let raw := strings.Trim b 34
  let percentage : Percentage := { Number := 0, HasSuffix := false }
  let hs := strings.HasSuffix raw (ascii "%")
  let percentage := if hs then { percentage with HasSuffix := true } else percentage
  let raw := if hs then strings.TrimSuffix raw (ascii "%") else raw
  match strconv.ParseInt raw with
  | (_, some err) => (p, some (fmt.Errorf err))
  | (value, none) => ({ percentage with Number := wrapSigned intSize value }, none)

/-! ## Error messages -/

/-- `Error()` of the sentinel errors of `strconv`. -/
def strconv.Sentinel.Error : strconv.Sentinel → List Byte
  | strconv.Sentinel.ErrRange => ascii "value out of range"
  | strconv.Sentinel.ErrSyntax => ascii "invalid syntax"

/-- `strconv.lowerhex`. -/
def strconv.lowerhex : List Byte := ascii "0123456789abcdef"

/-- `strconv.IsPrint(r)`. The fast check for Latin-1 is as in the source; the Unicode tables
searched for a rune above U+00FF are the argument `isPrintWide`. -/
def strconv.IsPrint (isPrintWide : Nat → Bool) (r : Nat) : Bool :=
  if r ≤ 0xFF then
    if 0x20 ≤ r ∧ r ≤ 0x7E then true
    else if 0xA1 ≤ r ∧ r ≤ 0xFF then r != 0xAD
    else false
  else isPrintWide r

/-- `utf8.AppendRune(nil, r)`: the UTF-8 encoding of `r`. -/
def utf8.AppendRune (r : Nat) : List Byte :=
  if r ≤ 0x7F then [UInt8.ofNat r]
  else if r ≤ 0x7FF then
    [UInt8.ofNat (0xC0 ||| (r >>> 6)), UInt8.ofNat (0x80 ||| (r &&& 0x3F))]
  else
    let r := if r > 0x10FFFF ∨ (0xD800 ≤ r ∧ r ≤ 0xDFFF) then utf8.RuneError else r
    if r ≤ 0xFFFF then
      [UInt8.ofNat (0xE0 ||| (r >>> 12)), UInt8.ofNat (0x80 ||| ((r >>> 6) &&& 0x3F)),
        UInt8.ofNat (0x80 ||| (r &&& 0x3F))]
    else
      [UInt8.ofNat (0xF0 ||| (r >>> 18)), UInt8.ofNat (0x80 ||| ((r >>> 12) &&& 0x3F)),
        UInt8.ofNat (0x80 ||| ((r >>> 6) &&& 0x3F)), UInt8.ofNat (0x80 ||| (r &&& 0x3F))]

/-- The hexadecimal digits written by
`for s := 4*(n-1); s >= 0; s -= 4 { buf = append(buf, lowerhex[r>>uint(s)&0xF]) }`. -/
def strconv.appendHex : Nat → Nat → List Byte
  | 0, _ => []
  | n + 1, r => strconv.lowerhex.getD ((r >>> (4 * n)) &&& 0xF) 0 :: strconv.appendHex n r

/-- `strconv.appendEscapedRune(nil, r, quote, false, false)` with the double quote as `quote`. -/
def strconv.appendEscapedRune (isPrintWide : Nat → Bool) (r : Nat) : List Byte :=
  if r = 34 ∨ r = 92 then [92, UInt8.ofNat r]
  else if strconv.IsPrint isPrintWide r then utf8.AppendRune r
  else if r = 7 then ascii "\\a"
  else if r = 8 then ascii "\\b"
  else if r = 12 then ascii "\\f"
  else if r = 10 then ascii "\\n"
  else if r = 13 then ascii "\\r"
  else if r = 9 then ascii "\\t"
  else if r = 11 then ascii "\\v"
  else if r < 32 ∨ r = 0x7F then ascii "\\x" ++ strconv.appendHex 2 (r % 256)
  else
    let r := if ¬ (r < 0xD800 ∨ (0xDFFF < r ∧ r ≤ 0x10FFFF)) then 0xFFFD else r
    if r < 0x10000 then ascii "\\u" ++ strconv.appendHex 4 r
    else ascii "\\U" ++ strconv.appendHex 8 r

/-- The loop of `strconv.appendQuotedWith(nil, s, quote, false, false)`, as the bytes it
contributes. The first argument counts the bytes of the rune just handled that are still ahead
(the loop steps over them with `s = s[width:]`). -/
def strconv.appendQuotedLoop (isPrintWide : Nat → Bool) : Nat → List Byte → List Byte
  | _, [] => []
  | skip + 1, _ :: s => strconv.appendQuotedLoop isPrintWide skip s
  | 0, b :: s =>
    match (if b.toNat ≥ 0x80 then utf8.DecodeRuneInString (b :: s) else (b.toNat, 1)) with
    | (r, width) =>
      if width = 1 ∧ r = utf8.RuneError then
        ascii "\\x" ++ [strconv.lowerhex.getD (b.toNat >>> 4) 0,
          strconv.lowerhex.getD (b.toNat &&& 0xF) 0] ++ strconv.appendQuotedLoop isPrintWide 0 s
      else
        strconv.appendEscapedRune isPrintWide r
          ++ strconv.appendQuotedLoop isPrintWide (width - 1) s

/-- `strconv.Quote(s)`: a double-quoted Go string literal for `s`. -/
def strconv.Quote (isPrintWide : Nat → Bool) (s : List Byte) : List Byte :=
  34 :: strconv.appendQuotedLoop isPrintWide 0 s ++ [34]

/-- `func (e *NumError) Error() string`:
`"strconv." + e.Func + ": " + "parsing " + Quote(e.Num) + ": " + e.Err.Error()`. -/
def strconv.NumError.Error (isPrintWide : Nat → Bool) (e : strconv.NumError) : List Byte :=
  ascii "strconv." ++ ascii e.Func ++ ascii ": " ++ ascii "parsing "
    ++ strconv.Quote isPrintWide e.Num ++ ascii ": " ++ e.Err.Error

/-- `func (e *wrapError) Error() string`: the message built by `fmt.Errorf`, the text of the
format with the message of the wrapped error in the place of `%w`. -/
def fmt.wrapError.Error (isPrintWide : Nat → Bool) (e : fmt.wrapError) : List Byte :=
  e.text ++ e.err.Error isPrintWide

/-- `func (e *wrapError) Unwrap() error`. -/
def fmt.wrapError.Unwrap (e : fmt.wrapError) : strconv.NumError := e.err

/-! ## Vocabulary of the specification -/

/-- A decimal digit, one of the bytes `0`..`9`. -/
def isDigit (c : Byte) : Bool := decide (48 ≤ c.toNat ∧ c.toNat ≤ 57)

/-- The number denoted by a string of decimal digits, most significant first. -/
def decimalValue (ds : List Byte) : Nat :=
  ds.foldl (fun n c => n * 10 + (c.toNat - 48)) 0

/-- A signed base-10 integer in text: an optional `+` or `-`, then one or more digits. -/
def isSignedDecimal (s : List Byte) : Bool :=
  match s with
  | [] => false
  | c :: t =>
    if c = 43 ∨ c = 45 then !t.isEmpty && t.all isDigit
    else s.all isDigit

/-- The integer denoted by a signed base-10 text. -/
def signedDecimalValue (s : List Byte) : Int :=
  match s with
  | [] => 0
  | c :: t =>
    if c = 45 then -(decimalValue t : Int)
    else if c = 43 then (decimalValue t : Int)
    else (decimalValue s : Int)

/-- The token with every leading and every trailing double quote removed. -/
def stripQuotes (b : List Byte) : List Byte :=
  (b.rdropWhile (fun c => c == 34)).dropWhile (fun c => c == 34)

/-- Whether the quote-stripped token ends with `%`. -/
def endsWithPercent (b : List Byte) : Bool :=
  (stripQuotes b).getLast? == some 37

/-- The text left after stripping the surrounding quotes and one trailing `%`. -/
def numericText (b : List Byte) : List Byte :=
  if endsWithPercent b then (stripQuotes b).dropLast else stripQuotes b

/-- The canonical base-10 signed rendering of `n`: a `-` exactly when `n < 0`, then the
digits of `|n|` with no leading zero (the single digit `0` for zero) and no `+`. -/
def isCanonicalDecimal (n : Int) (s : List Byte) : Prop :=
  ∃ ds : List Byte, s = (if n < 0 then [45] else []) ++ ds ∧ ds ≠ [] ∧
    (∀ c ∈ ds, isDigit c = true) ∧ decimalValue ds = n.natAbs ∧
    (ds.head? = some 48 → ds = [48])

/-- A token of the well-formed shape: optionally wrapped in double quotes, an optional sign,
the digits `ds`, optionally one trailing `%`. -/
def wellFormedToken (quoted : Bool) (sign ds : List Byte) (pct : Bool) : List Byte :=
  (if quoted then [34] else []) ++ (sign ++ ds ++ (if pct then [37] else [])) ++
    (if quoted then [34] else [])

/-! ## Quick checks of the embedding -/

example : Percentage.String 64 ⟨75, true⟩ = ascii "75%" := by decide
example : Percentage.String 64 ⟨-9223372036854775808, false⟩ = ascii "-9223372036854775808" := by
  decide
example : Percentage.String 32 ⟨-2147483648, true⟩ = ascii "-2147483648%" := by decide
example : strconv.FormatInt 32 9223372036854775807 = ascii "9223372036854775807" := by decide
example : strconv.FormatInt 32 1000000000 = ascii "1000000000" := by decide
example : Percentage.MarshalJSON 64 ⟨10, false⟩ = (ascii "\"10\"", none) := by decide
example : Percentage.UnmarshalJSON 64 ⟨1, true⟩ (ascii "\"-5%\"") = (⟨-5, true⟩, none) := by
  decide
example : (Percentage.UnmarshalJSON 64 ⟨1, true⟩ (ascii "\"abc\"")).2.isSome = true := by decide
example : strconv.Quote (fun _ => false) ([97, 34, 92, 10, 1, 0x7F, 0xFF, 0xC3, 0xA9, 0xE2, 0x80, 0xA8])
    = ascii "\"a\\\"\\\\\\n\\x01\\x7f\\xff" ++ [0xC3, 0xA9] ++ ascii "\\u2028\"" := by decide
example : ∀ w, fmt.wrapError.Error w (fmt.Errorf (strconv.syntaxError "ParseInt" (ascii "abc")))
    = ascii "invalid percentage: strconv.ParseInt: parsing \"abc\": invalid syntax" :=
  fun _ => rfl
example : json.appendString [60, 0xE2, 0x80, 0xA8, 0xC3, 0xA9, 0xFF, 10]
    = ascii "\"\\u003c\\u2028" ++ [0xC3, 0xA9] ++ ascii "\\ufffd\\n\"" := by decide

/-! ## Bytes and strings -/

theorem byte_ne_of_toNat_ne {a b : Byte} (h : a.toNat ≠ b.toNat) : a ≠ b := by
  intro e; exact h (by rw [e])

theorem isDigit_iff (c : Byte) : isDigit c = true ↔ 48 ≤ c.toNat ∧ c.toNat ≤ 57 := by
  simp [isDigit]

theorem trimLeftByte_eq_dropWhile (s : List Byte) (c : Byte) :
    strings.trimLeftByte s c = s.dropWhile (fun b => b == c) := by
  induction s with
  | nil => rfl
  | cons b s ih =>
    by_cases h : b = c
    · simp [strings.trimLeftByte, List.dropWhile_cons, h, ih]
    · simp [strings.trimLeftByte, List.dropWhile_cons, h]

theorem trimRightByte_concat (s : List Byte) (x c : Byte) :
    strings.trimRightByte (s ++ [x]) c
      = if x = c then strings.trimRightByte s c else s ++ [x] := by
  induction s with
  | nil =>
    by_cases h : x = c <;> simp [strings.trimRightByte, h]
  | cons b s ih =>
    rw [List.cons_append, strings.trimRightByte, ih]
    by_cases h : x = c
    · simp [h, strings.trimRightByte]
    · simp only [h, if_false]
      cases s <;> simp

theorem trimRightByte_eq_rdropWhile (s : List Byte) (c : Byte) :
    strings.trimRightByte s c = s.rdropWhile (fun b => b == c) := by
  induction s using List.reverseRecOn with
  | nil => rfl
  | append_singleton s x ih =>
    rw [trimRightByte_concat, List.rdropWhile_concat]
    by_cases h : x = c <;> simp [h, ih]

theorem Trim_eq_stripQuotes (b : List Byte) : strings.Trim b 34 = stripQuotes b := by
  simp [strings.Trim, stripQuotes, trimLeftByte_eq_dropWhile, trimRightByte_eq_rdropWhile]

theorem ascii_percent : ascii "%" = [37] := by decide

theorem HasSuffix_percent (s : List Byte) :
    strings.HasSuffix s [37] = (s.getLast? == some 37) := by
  induction s using List.reverseRecOn with
  | nil => rfl
  | append_singleton r x =>
    simp [strings.HasSuffix]

theorem TrimSuffix_percent (s : List Byte) (h : strings.HasSuffix s [37] = true) :
    strings.TrimSuffix s [37] = s.dropLast := by
  induction s using List.reverseRecOn with
  | nil => rfl
  | append_singleton r x =>
    simp [strings.TrimSuffix, h]

/-- The text handed to `strconv.ParseInt` and the flag, in the vocabulary of the
specification. -/
theorem UnmarshalJSON_eq (intSize : Nat) (p : Percentage) (b : List Byte) :
    Percentage.UnmarshalJSON intSize p b =
      match strconv.ParseInt (numericText b) with
      | (_, some err) => (p, some (fmt.Errorf err))
      | (value, none) =>
        ({ Number := wrapSigned intSize value, HasSuffix := endsWithPercent b }, none) := by
  unfold Percentage.UnmarshalJSON
  simp only [ascii_percent, Trim_eq_stripQuotes, HasSuffix_percent]
  by_cases h : ((stripQuotes b).getLast? == some 37) = true
  · have h2 : strings.HasSuffix (stripQuotes b) [37] = true := by
      rw [HasSuffix_percent]; exact h
    simp only [numericText, endsWithPercent, h, if_true, TrimSuffix_percent _ h2]
  · simp only [numericText, endsWithPercent, h, if_false]
    rfl

/-! ## `strconv.ParseUint` and `strconv.ParseInt` -/

theorem le_foldl_decimal (ds : List Byte) (n : Nat) :
    n ≤ ds.foldl (fun n c => n * 10 + (c.toNat - 48)) n := by
  induction ds generalizing n with
  | nil => simp
  | cons c ds ih =>
    simp only [List.foldl_cons]
    exact le_trans (by omega) (ih _)

/-- On digits the loop of `ParseUint` computes the decimal value, or reports a range error
exactly when that value does not fit in 64 bits. -/
theorem parseUintLoop_digits (s0 ds : List Byte) (n : Nat) (hn : n < 2 ^ 64)
    (hd : ∀ c ∈ ds, isDigit c = true) :
    strconv.parseUintLoop s0 ds n =
      if ds.foldl (fun n c => n * 10 + (c.toNat - 48)) n < 2 ^ 64 then
        (ds.foldl (fun n c => n * 10 + (c.toNat - 48)) n, none)
      else (strconv.maxUint64, some (strconv.rangeError "ParseUint" s0)) := by
  induction ds generalizing n with
  | nil =>
    have hn2 : n < 18446744073709551616 := by norm_num only at hn; exact hn
    simp [strconv.parseUintLoop, hn2]
  | cons c ds ih =>
    have hc : 48 ≤ c.toNat ∧ c.toNat ≤ 57 := (isDigit_iff c).1 (hd c (by simp))
    have hds : ∀ x ∈ ds, isDigit x = true := fun x hx => hd x (by simp [hx])
    have hge := le_foldl_decimal ds (n * 10 + (c.toNat - 48))
    simp only [strconv.parseUintLoop, hc, and_self, if_true, List.foldl_cons,
      strconv.maxUint64]
    norm_num only at hn hge ⊢
    have hd10 : ¬ (10 ≤ c.toNat - 48) := by omega
    simp only [ge_iff_le, hd10, if_false]
    by_cases h1 : 1844674407370955162 ≤ n
    · have : ¬ (List.foldl (fun n c => n * 10 + (c.toNat - 48)) (n * 10 + (c.toNat - 48)) ds
          < 18446744073709551616) := by omega
      simp only [h1, if_true, this, if_false]
    · have e1 : n * 10 % 18446744073709551616 = n * 10 := by omega
      simp only [h1, if_false, e1]
      by_cases h2 : n * 10 + (c.toNat - 48) < 18446744073709551616
      · have e2 : (n * 10 + (c.toNat - 48)) % 18446744073709551616
            = n * 10 + (c.toNat - 48) := by omega
        have h3 : ¬ (n * 10 + (c.toNat - 48) < n * 10 ∨
            n * 10 + (c.toNat - 48) > 18446744073709551615) := by omega
        rw [e2, if_neg h3, ih _ (by norm_num only; exact h2) hds]
        norm_num [strconv.maxUint64]
      · have h3 : (n * 10 + (c.toNat - 48)) % 18446744073709551616 < n * 10 ∨
            (n * 10 + (c.toNat - 48)) % 18446744073709551616 > 18446744073709551615 := by
          omega
        have : ¬ (List.foldl (fun n c => n * 10 + (c.toNat - 48)) (n * 10 + (c.toNat - 48)) ds
            < 18446744073709551616) := by omega
        rw [if_pos h3, if_neg this]

/-- A byte that is not a digit makes the loop of `ParseUint` fail: with a syntax error at
that byte, or with a range error before reaching it. -/
theorem parseUintLoop_nondigit (s0 ds : List Byte) (n : Nat)
    (hd : ∃ c ∈ ds, isDigit c = false) :
    strconv.parseUintLoop s0 ds n = (0, some (strconv.syntaxError "ParseUint" s0)) ∨
    strconv.parseUintLoop s0 ds n
      = (strconv.maxUint64, some (strconv.rangeError "ParseUint" s0)) := by
  induction ds generalizing n with
  | nil => simp at hd
  | cons c ds ih =>
    by_cases hc : 48 ≤ c.toNat ∧ c.toNat ≤ 57
    · have hds : ∃ x ∈ ds, isDigit x = false := by
        obtain ⟨x, hx, hx2⟩ := hd
        rcases List.mem_cons.1 hx with rfl | hx
        · simp [isDigit, hc] at hx2
        · exact ⟨x, hx, hx2⟩
      simp only [strconv.parseUintLoop, hc, and_self, if_true]
      split_ifs
      · exact Or.inl rfl
      · exact Or.inr rfl
      · exact Or.inr rfl
      · exact ih _ hds
    · simp only [strconv.parseUintLoop, hc, if_false]
      by_cases hl : 97 ≤ strconv.lower c ∧ strconv.lower c ≤ 122
      · have h10 : strconv.lower c - 97 + 10 ≥ 10 := by omega
        simp only [hl, and_self, if_true, h10]
        exact Or.inl trivial
      · simp only [hl, if_false]
        exact Or.inl trivial

theorem ParseUint_digits (ds : List Byte) (hne : ds ≠ [])
    (hd : ∀ c ∈ ds, isDigit c = true) :
    strconv.ParseUint ds =
      if decimalValue ds < 2 ^ 64 then (decimalValue ds, none)
      else (strconv.maxUint64, some (strconv.rangeError "ParseUint" ds)) := by
  simp only [strconv.ParseUint, hne, if_false, decimalValue]
  exact parseUintLoop_digits ds ds 0 (by norm_num) hd

theorem ParseUint_malformed (ds : List Byte)
    (h : ds = [] ∨ ∃ c ∈ ds, isDigit c = false) :
    strconv.ParseUint ds = (0, some (strconv.syntaxError "ParseUint" ds)) ∨
    strconv.ParseUint ds = (strconv.maxUint64, some (strconv.rangeError "ParseUint" ds)) := by
  by_cases hne : ds = []
  · left; simp [strconv.ParseUint, hne]
  · simp only [strconv.ParseUint, hne, if_false]
    rcases h with h | h
    · exact absurd h hne
    · exact parseUintLoop_nondigit ds ds 0 h

/-- What `ParseInt` makes of the result of `ParseUint` on the text after the sign;
`neg` is whether the first byte is `-`. -/
theorem ParseInt_cons (c : Byte) (t : List Byte) :
    strconv.ParseInt (c :: t) =
      match strconv.ParseUint (if c = 43 then t else if c = 45 then t else c :: t) with
      | (un, err) =>
        if err.isSome ∧ err.map (fun e => e.Err) ≠ some strconv.Sentinel.ErrRange then
          (0, err.map (fun e => { e with Func := "ParseInt", Num := c :: t }))
        else if !(decide (c = 45)) ∧ un ≥ 2 ^ 63 then
          ((2 ^ 63 : Nat) - 1, some (strconv.rangeError "ParseInt" (c :: t)))
        else if decide (c = 45) ∧ un > 2 ^ 63 then
          (-((2 ^ 63 : Nat) : Int), some (strconv.rangeError "ParseInt" (c :: t)))
        else
          (if decide (c = 45) then wrapSigned 64 (-wrapSigned 64 un)
            else wrapSigned 64 un, none) := by
  unfold strconv.ParseInt
  by_cases h43 : c = 43
  · subst h43; rfl
  · by_cases h45 : c = 45
    · subst h45; rfl
    · simp only [h43, h45, if_false, decide_False]

/-- The text after the sign, for a text that is a signed decimal. -/
theorem isSignedDecimal_cases (s : List Byte) (h : isSignedDecimal s = true) :
    ∃ c t, s = c :: t ∧
      ((c = 43 ∧ t ≠ [] ∧ (∀ x ∈ t, isDigit x = true) ∧
          signedDecimalValue s = (decimalValue t : Int)) ∨
       (c = 45 ∧ t ≠ [] ∧ (∀ x ∈ t, isDigit x = true) ∧
          signedDecimalValue s = -(decimalValue t : Int)) ∨
       (c ≠ 43 ∧ c ≠ 45 ∧ (∀ x ∈ c :: t, isDigit x = true) ∧
          signedDecimalValue s = (decimalValue (c :: t) : Int))) := by
  cases s with
  | nil => simp [isSignedDecimal] at h
  | cons c t =>
    refine ⟨c, t, rfl, ?_⟩
    by_cases h43 : c = 43
    · subst h43
      left
      simp only [isSignedDecimal, true_or, if_true, Bool.and_eq_true, Bool.not_eq_true',
        List.isEmpty_eq_false, List.all_eq_true] at h
      refine ⟨rfl, ?_, h.2, ?_⟩
      · intro e; simp [e] at h
      · simp [signedDecimalValue]
    · by_cases h45 : c = 45
      · subst h45
        right; left
        simp only [isSignedDecimal, or_true, if_true, Bool.and_eq_true, Bool.not_eq_true',
          List.isEmpty_eq_false, List.all_eq_true] at h
        refine ⟨rfl, ?_, h.2, ?_⟩
        · intro e; simp [e] at h
        · simp [signedDecimalValue]
      · right; right
        simp only [isSignedDecimal, h43, h45, or_self, if_false, List.all_eq_true] at h
        exact ⟨h43, h45, h, by simp [signedDecimalValue, h43, h45]⟩

theorem wrapSigned_of_inSigned (bits : Nat) (x : Int) (hb : 1 ≤ bits) (h : inSigned bits x) :
    wrapSigned bits x = x := by
  obtain ⟨k, rfl⟩ : ∃ k, bits = k + 1 := ⟨bits - 1, by omega⟩
  simp only [inSigned, wrapSigned, Nat.add_sub_cancel] at h ⊢
  have hp : (2 : Int) ^ (k + 1) = 2 * 2 ^ k := by ring
  have hpos : (0 : Int) < 2 ^ k := by positivity
  rw [hp, Int.emod_eq_of_lt (by omega) (by omega)]
  omega

theorem wrapSigned_64_small (m : Nat) (h : m < 2 ^ 63) : wrapSigned 64 (m : Int) = m := by
  apply wrapSigned_of_inSigned 64 _ (by norm_num)
  simp only [inSigned]
  norm_num at h ⊢
  omega

theorem wrapSigned_64_neg (m : Nat) (h : m ≤ 2 ^ 63) :
    wrapSigned 64 (-wrapSigned 64 (m : Int)) = -(m : Int) := by
  simp only [wrapSigned]
  norm_num at h ⊢
  omega

theorem inSigned_64_iff (x : Int) :
    inSigned 64 x ↔ -9223372036854775808 ≤ x ∧ x < 9223372036854775808 := by
  simp only [inSigned]
  norm_num

theorem ParseInt_cons_digits (c : Byte) (t ds : List Byte) (neg : Bool)
    (hs : (if c = 43 then t else if c = 45 then t else c :: t) = ds)
    (hneg : decide (c = 45) = neg)
    (hne : ds ≠ []) (hd : ∀ x ∈ ds, isDigit x = true) :
    strconv.ParseInt (c :: t) =
      if inSigned 64 (if neg then -(decimalValue ds : Int) else (decimalValue ds : Int)) then
        (if neg then -(decimalValue ds : Int) else (decimalValue ds : Int), none)
      else (if neg then -(2 ^ 63) else 2 ^ 63 - 1,
        some (strconv.rangeError "ParseInt" (c :: t))) := by
  rw [ParseInt_cons, hs, hneg, ParseUint_digits ds hne hd]
  generalize decimalValue ds = m
  have e63 : (2 : Nat) ^ 63 = 9223372036854775808 := by norm_num
  have e64 : (2 : Nat) ^ 64 = 18446744073709551616 := by norm_num
  have i63 : (2 : Int) ^ 63 = 9223372036854775808 := by norm_num
  rw [e63, e64, i63]
  by_cases hlt : m < 18446744073709551616
  · rw [if_pos hlt]
    cases neg
    · simp only [Option.isSome_none, Bool.false_eq_true, false_and, if_false, Bool.not_false,
        true_and, ge_iff_le, inSigned_64_iff]
      by_cases h63 : m < 9223372036854775808
      · rw [if_neg (by omega), if_pos (by omega), wrapSigned_64_small m (by omega)]
      · rw [if_pos (by omega), if_neg (by omega)]
        norm_num
    · simp only [Option.isSome_none, Bool.false_eq_true, false_and, if_false, Bool.not_true,
        true_and, if_true, gt_iff_lt, inSigned_64_iff]
      by_cases h63 : m ≤ 9223372036854775808
      · rw [if_neg (by omega), if_pos (by omega), wrapSigned_64_neg m (by omega)]
      · rw [if_pos (by omega), if_neg (by omega)]
        norm_num
  · rw [if_neg hlt]
    have hmax : strconv.maxUint64 = 18446744073709551615 := by
      simp only [strconv.maxUint64]; norm_num
    rw [hmax]
    cases neg
    · simp only [Option.isSome_some, Option.map_some', strconv.rangeError, ne_eq, not_true,
        and_false, if_false, Bool.not_false, true_and, ge_iff_le, inSigned_64_iff,
        Bool.false_eq_true]
      rw [if_pos (by omega), if_neg (by omega)]
      norm_num
    · simp only [Option.isSome_some, Option.map_some', strconv.rangeError, ne_eq, not_true,
        and_false, if_false, Bool.not_true, Bool.false_eq_true, false_and, true_and, if_true,
        gt_iff_lt, inSigned_64_iff]
      rw [if_pos (by omega), if_neg (by omega)]
      norm_num

/-- `ParseInt` accepts a signed decimal whose value fits in 64 bits, and returns that value. -/
theorem ParseInt_signedDecimal_ok (s : List Byte) (h : isSignedDecimal s = true)
    (hr : inSigned 64 (signedDecimalValue s)) :
    strconv.ParseInt s = (signedDecimalValue s, none) := by
  obtain ⟨c, t, rfl, hc⟩ := isSignedDecimal_cases s h
  rcases hc with ⟨rfl, hne, hd, hv⟩ | ⟨rfl, hne, hd, hv⟩ | ⟨h43, h45, hd, hv⟩
  · rw [hv] at hr ⊢
    rw [ParseInt_cons_digits 43 t t false rfl rfl hne hd]
    simp only [Bool.false_eq_true, if_false]
    rw [if_pos hr]
  · rw [hv] at hr ⊢
    rw [ParseInt_cons_digits 45 t t true rfl rfl hne hd]
    simp only [if_true]
    rw [if_pos hr]
  · rw [hv] at hr ⊢
    rw [ParseInt_cons_digits c t (c :: t) false (by simp [h43, h45]) (by simp [h45])
      (by simp) hd]
    simp only [Bool.false_eq_true, if_false]
    rw [if_pos hr]

/-- `ParseInt` rejects a signed decimal whose value does not fit in 64 bits. -/
theorem ParseInt_signedDecimal_range (s : List Byte) (h : isSignedDecimal s = true)
    (hr : ¬ inSigned 64 (signedDecimalValue s)) :
    ∃ v, strconv.ParseInt s = (v, some (strconv.rangeError "ParseInt" s)) := by
  obtain ⟨c, t, rfl, hc⟩ := isSignedDecimal_cases s h
  rcases hc with ⟨rfl, hne, hd, hv⟩ | ⟨rfl, hne, hd, hv⟩ | ⟨h43, h45, hd, hv⟩
  · rw [hv] at hr
    rw [ParseInt_cons_digits 43 t t false rfl rfl hne hd]
    simp only [Bool.false_eq_true, if_false]
    rw [if_neg hr]
    exact ⟨_, rfl⟩
  · rw [hv] at hr
    rw [ParseInt_cons_digits 45 t t true rfl rfl hne hd]
    simp only [if_true]
    rw [if_neg hr]
    exact ⟨_, rfl⟩
  · rw [hv] at hr
    rw [ParseInt_cons_digits c t (c :: t) false (by simp [h43, h45]) (by simp [h45])
      (by simp) hd]
    simp only [Bool.false_eq_true, if_false]
    rw [if_neg hr]
    exact ⟨_, rfl⟩

/-- `ParseInt` rejects every text that is not a signed decimal; the error names the text. -/
theorem ParseInt_malformed (s : List Byte) (h : isSignedDecimal s = false) :
    ∃ v k, strconv.ParseInt s = (v, some { Func := "ParseInt", Num := s, Err := k }) := by
  cases s with
  | nil => exact ⟨0, strconv.Sentinel.ErrSyntax, rfl⟩
  | cons c t =>
    have hbad : (if c = 43 then t else if c = 45 then t else c :: t) = [] ∨
        ∃ x ∈ (if c = 43 then t else if c = 45 then t else c :: t), isDigit x = false := by
      by_cases hsg : c = 43 ∨ c = 45
      · have hs : (if c = 43 then t else if c = 45 then t else c :: t) = t := by
          rcases hsg with h1 | h1 <;> simp [h1]
        rw [hs]
        simp only [isSignedDecimal, hsg, if_true, Bool.and_eq_false_iff, Bool.not_eq_false',
          List.isEmpty_iff] at h
        rcases h with h | h
        · exact Or.inl h
        · right
          simpa using h
      · have hs : (if c = 43 then t else if c = 45 then t else c :: t) = c :: t := by
          simp only [not_or] at hsg
          simp [hsg.1, hsg.2]
        rw [hs]
        simp only [isSignedDecimal, hsg, if_false] at h
        right
        obtain ⟨x, hx, hx2⟩ := List.all_eq_false.1 h
        exact ⟨x, hx, by simpa using hx2⟩
    rw [ParseInt_cons]
    have hmax : strconv.maxUint64 = 18446744073709551615 := by
      simp only [strconv.maxUint64]; norm_num
    have e63 : (2 : Nat) ^ 63 = 9223372036854775808 := by norm_num
    rcases ParseUint_malformed _ hbad with hU | hU
    · rw [hU]
      simp only [Option.isSome_some, Option.map_some', strconv.syntaxError, ne_eq, true_and]
      rw [if_pos (by decide)]
      exact ⟨_, _, rfl⟩
    · rw [hU, hmax, e63]
      generalize decide (c = 45) = neg
      simp only [Option.isSome_some, Option.map_some', strconv.rangeError, ne_eq, not_true,
        and_false, if_false]
      cases neg
      · rw [if_pos (by simp)]
        exact ⟨_, _, rfl⟩
      · rw [if_neg (by simp), if_pos (by simp)]
        exact ⟨_, _, rfl⟩

/-! ## `strconv.FormatInt` -/

set_option maxRecDepth 100000 in
/-- The table `smallsString` holds, for `k < 100`, the tens digit and the units digit of `k`. -/
theorem smallsString_getD (k : Nat) (hk : k < 100) :
    (strconv.smallsString.getD (k * 2) 0).toNat = 48 + k / 10 ∧
    (strconv.smallsString.getD (k * 2 + 1) 0).toNat = 48 + k % 10 := by
  revert k
  decide

set_option maxRecDepth 100000 in
/-- The fast path of `FormatInt`: for `i < 100`, `small i` is the canonical rendering. -/
theorem small_spec (i : Nat) (hi : i < 100) :
    strconv.small i ≠ [] ∧ (strconv.small i).all isDigit = true ∧
    decimalValue (strconv.small i) = i ∧
    ((strconv.small i).head? = some 48 → strconv.small i = [48]) := by
  revert i
  decide

theorem isDigit_of_toNat (c : Byte) (d : Nat) (hd : d < 10) (h : c.toNat = 48 + d) :
    isDigit c = true := by
  rw [isDigit_iff]; omega

/-- The two-digits-at-a-time loop of `formatBits`: it leaves `us' < 100` and prepends to the
buffer digits `ds` such that the digits of `us'` followed by `ds` denote `us`. -/
theorem formatBitsLoop_spec (fuel us : Nat) (a : List Byte) (h : us < 100 ^ (fuel + 1)) :
    ∃ (ds : List Byte) (us' : Nat),
      strconv.formatBitsLoop fuel us a = (us', ds ++ a) ∧ us' < 100 ∧
      (∀ c ∈ ds, isDigit c = true) ∧
      ds.foldl (fun n c => n * 10 + (c.toNat - 48)) us' = us ∧
      (us < 100 → ds = [] ∧ us' = us) ∧ (100 ≤ us → 1 ≤ us') := by
  induction fuel generalizing us a with
  | zero =>
    refine ⟨[], us, ?_, by simpa using h, by simp, rfl, fun _ => ⟨rfl, rfl⟩, ?_⟩
    · simp [strconv.formatBitsLoop]
    · intro h2; simp at h; omega
  | succ fuel ih =>
    by_cases hge : us ≥ 100
    · have hdiv : us / 100 < 100 ^ (fuel + 1) := by
        apply Nat.div_lt_of_lt_mul
        rw [pow_succ] at h
        omega
      have hk : us % 100 < 100 := Nat.mod_lt _ (by norm_num)
      obtain ⟨t1, t2⟩ := smallsString_getD (us % 100) hk
      obtain ⟨ds, us', heq, hlt, hdig, hval, hsmall, hone⟩ := ih (us / 100)
        (strconv.smallsString.getD (us % 100 * 2) 0 ::
          strconv.smallsString.getD (us % 100 * 2 + 1) 0 :: a) hdiv
      refine ⟨ds ++ [strconv.smallsString.getD (us % 100 * 2) 0,
        strconv.smallsString.getD (us % 100 * 2 + 1) 0], us', ?_, hlt, ?_, ?_, ?_, ?_⟩
      · rw [strconv.formatBitsLoop, if_pos hge]
        simp only [heq, List.append_assoc, List.cons_append, List.nil_append]
      · intro c hc
        rcases List.mem_append.1 hc with hc | hc
        · exact hdig c hc
        · simp only [List.mem_cons, List.mem_singleton, List.not_mem_nil, or_false] at hc
          rcases hc with rfl | rfl
          · exact isDigit_of_toNat _ (us % 100 / 10) (by omega) t1
          · exact isDigit_of_toNat _ (us % 100 % 10) (by omega) t2
      · rw [List.foldl_append, hval]
        simp only [List.foldl_cons, List.foldl_nil, t1, t2]
        omega
      · intro h2; omega
      · intro _
        by_cases h3 : 100 ≤ us / 100
        · exact hone h3
        · have := (hsmall (by omega)).2
          omega
    · refine ⟨[], us, ?_, by omega, by simp, rfl, fun _ => ⟨rfl, rfl⟩, fun h2 => by omega⟩
      rw [strconv.formatBitsLoop, if_neg hge]
      rfl

theorem foldl_decimal_shift (ds : List Byte) (x : Nat) :
    ds.foldl (fun n c => n * 10 + (c.toNat - 48)) x
      = x * 10 ^ ds.length + ds.foldl (fun n c => n * 10 + (c.toNat - 48)) 0 := by
  induction ds generalizing x with
  | nil => simp
  | cons c ds ih =>
    simp only [List.foldl_cons, List.length_cons]
    rw [ih (x * 10 + (c.toNat - 48)), ih (0 * 10 + (c.toNat - 48))]
    ring

/-- The inner loop of the 32-bit branch: `j` rounds prepend `2 * j` digits and leave
`us / 100 ^ j`. -/
theorem formatBitsInner_spec (j us : Nat) (a : List Byte) :
    ∃ ds : List Byte,
      strconv.formatBitsInner j us a = (us / 100 ^ j, ds ++ a) ∧ ds.length = 2 * j ∧
      (∀ c ∈ ds, isDigit c = true) ∧
      ds.foldl (fun n c => n * 10 + (c.toNat - 48)) (us / 100 ^ j) = us := by
  induction j generalizing us a with
  | zero => exact ⟨[], by simp [strconv.formatBitsInner], rfl, by simp, by simp⟩
  | succ j ih =>
    have hk : us % 100 < 100 := Nat.mod_lt _ (by norm_num)
    obtain ⟨t1, t2⟩ := smallsString_getD (us % 100) hk
    obtain ⟨ds, heq, hlen, hdig, hval⟩ := ih (us / 100)
      (strconv.smallsString.getD (us % 100 * 2) 0 ::
        strconv.smallsString.getD (us % 100 * 2 + 1) 0 :: a)
    have hdd : us / 100 / 100 ^ j = us / 100 ^ (j + 1) := by
      rw [Nat.div_div_eq_div_mul, pow_succ, Nat.mul_comm]
    refine ⟨ds ++ [strconv.smallsString.getD (us % 100 * 2) 0,
      strconv.smallsString.getD (us % 100 * 2 + 1) 0], ?_, ?_, ?_, ?_⟩
    · rw [strconv.formatBitsInner]
      simp only [heq, hdd, List.append_assoc, List.cons_append, List.nil_append]
    · simp only [List.length_append, hlen, List.length_cons, List.length_nil]
      omega
    · intro c hc
      rcases List.mem_append.1 hc with hc | hc
      · exact hdig c hc
      · simp only [List.mem_cons, List.mem_singleton, List.not_mem_nil, or_false] at hc
        rcases hc with rfl | rfl
        · exact isDigit_of_toNat _ (us % 100 / 10) (by omega) t1
        · exact isDigit_of_toNat _ (us % 100 % 10) (by omega) t2
    · rw [← hdd, List.foldl_append, hval]
      simp only [List.foldl_cons, List.foldl_nil, t1, t2]
      omega

/-- The nine-digits-at-a-time loop taken on 32-bit hosts: it leaves `u' < 1e9` and prepends
digits `ds` such that the digits of `u'` followed by `ds` denote `u`. -/
theorem formatBits32Loop_spec (fuel u : Nat) (a : List Byte)
    (h : u < 1000000000 ^ (fuel + 1)) :
    ∃ (ds : List Byte) (u' : Nat),
      strconv.formatBits32Loop fuel u a = (u', ds ++ a) ∧ u' < 1000000000 ∧
      (∀ c ∈ ds, isDigit c = true) ∧
      ds.foldl (fun n c => n * 10 + (c.toNat - 48)) u' = u ∧
      (u < 1000000000 → ds = [] ∧ u' = u) ∧ (1000000000 ≤ u → 1 ≤ u') := by
  induction fuel generalizing u a with
  | zero =>
    refine ⟨[], u, ?_, by simpa using h, by simp, rfl, fun _ => ⟨rfl, rfl⟩, ?_⟩
    · simp [strconv.formatBits32Loop]
    · intro h2; simp at h; omega
  | succ fuel ih =>
    by_cases hge : u ≥ 1000000000
    · have hdiv : u / 1000000000 < 1000000000 ^ (fuel + 1) := by
        apply Nat.div_lt_of_lt_mul
        rw [pow_succ] at h
        omega
      obtain ⟨ds4, h4eq, h4len, h4dig, h4val⟩ :=
        formatBitsInner_spec 4 (u - u / 1000000000 * 1000000000) a
      have hlt10 : (u - u / 1000000000 * 1000000000) / 100 ^ 4 < 10 := by
        norm_num
        omega
      obtain ⟨-, t2⟩ := smallsString_getD ((u - u / 1000000000 * 1000000000) / 100 ^ 4)
        (by omega)
      obtain ⟨ds, u', heq, hlt, hdig, hval, hsmall, hone⟩ := ih (u / 1000000000)
        (strconv.smallsString.getD ((u - u / 1000000000 * 1000000000) / 100 ^ 4 * 2 + 1) 0 ::
          (ds4 ++ a)) hdiv
      refine ⟨ds ++ strconv.smallsString.getD
        ((u - u / 1000000000 * 1000000000) / 100 ^ 4 * 2 + 1) 0 :: ds4, u', ?_, hlt, ?_, ?_, ?_, ?_⟩
      · rw [strconv.formatBits32Loop, if_pos hge]
        simp only [h4eq, heq, List.append_assoc, List.cons_append]
      · intro c hc
        rcases List.mem_append.1 hc with hc | hc
        · exact hdig c hc
        · rcases List.mem_cons.1 hc with rfl | hc
          · exact isDigit_of_toNat _ _ (Nat.mod_lt _ (by norm_num)) t2
          · exact h4dig c hc
      · rw [List.foldl_append, hval, List.foldl_cons, t2, foldl_decimal_shift]
        rw [foldl_decimal_shift] at h4val
        rw [h4len] at h4val ⊢
        norm_num at h4val hlt10 ⊢
        omega
      · intro h2; omega
      · intro _
        by_cases h3 : 1000000000 ≤ u / 1000000000
        · exact hone h3
        · have := (hsmall (by omega)).2
          omega
    · refine ⟨[], u, ?_, by omega, by simp, rfl, fun _ => ⟨rfl, rfl⟩, fun h2 => by omega⟩
      rw [strconv.formatBits32Loop, if_neg hge]
      rfl

/-- The base-10 branch of `formatBits`, on hosts of either width: a `-` when `neg`, then
the digits of the magnitude with no leading zero. -/
theorem formatBits_spec (host32bit : Bool) (u : Nat) (neg : Bool)
    (hu : (if neg then (2 ^ 64 - u) % 2 ^ 64 else u) < 2 ^ 64) :
    ∃ ds : List Byte, strconv.formatBits host32bit u neg = (if neg then [45] else []) ++ ds ∧
      ds ≠ [] ∧ (∀ c ∈ ds, isDigit c = true) ∧
      decimalValue ds = (if neg then (2 ^ 64 - u) % 2 ^ 64 else u) ∧
      (ds.head? = some 48 → ds = [48]) := by
  unfold strconv.formatBits
  generalize (if neg then (2 ^ 64 - u) % 2 ^ 64 else u) = m at hu ⊢
  -- the 32-bit loop, when taken
  obtain ⟨ds1, u1, heq1, hlt1, hdig1, hval1, hsmall1, hone1⟩ :
      ∃ (ds1 : List Byte) (u1 : Nat),
        (if host32bit then strconv.formatBits32Loop 7 m [] else (m, [])) = (u1, ds1) ∧
        u1 < 2 ^ 64 ∧ (∀ c ∈ ds1, isDigit c = true) ∧
        ds1.foldl (fun n c => n * 10 + (c.toNat - 48)) u1 = m ∧
        (u1 = 0 → ds1 = []) ∧ (m ≠ 0 → ds1 ≠ [] → u1 ≠ 0) := by
    cases host32bit
    · exact ⟨[], m, rfl, hu, by simp, rfl, fun _ => rfl, fun _ h => absurd rfl h⟩
    · obtain ⟨ds, u', heq, hlt, hdig, hval, hsmall, hone⟩ :=
        formatBits32Loop_spec 7 m [] (lt_trans hu (by norm_num))
      refine ⟨ds, u', by simpa using heq, lt_trans hlt (by norm_num), hdig, hval, ?_, ?_⟩
      · intro h0
        by_cases hm : m < 1000000000
        · exact (hsmall hm).1
        · have := hone (by omega)
          omega
      · intro _ hds h0
        by_cases hm : m < 1000000000
        · exact hds (hsmall hm).1
        · have := hone (by omega)
          omega
  obtain ⟨ds, us, heq, hlt, hdig, hval, hsmall, hone⟩ :=
    formatBitsLoop_spec 32 u1 ds1 (lt_trans hlt1 (by norm_num))
  obtain ⟨t1, t2⟩ := smallsString_getD us hlt
  simp only [heq1, heq]
  have hlo : isDigit (strconv.smallsString.getD (us * 2 + 1) 0) = true :=
    isDigit_of_toNat _ (us % 10) (by omega) t2
  have hhi : isDigit (strconv.smallsString.getD (us * 2) 0) = true :=
    isDigit_of_toNat _ (us / 10) (by omega) t1
  have hall : ∀ c ∈ ds ++ ds1, isDigit c = true := by
    intro c hc
    rcases List.mem_append.1 hc with hc | hc
    · exact hdig c hc
    · exact hdig1 c hc
  have hvalall : (ds ++ ds1).foldl (fun n c => n * 10 + (c.toNat - 48)) us = m := by
    rw [List.foldl_append, hval, hval1]
  have hzero : us = 0 → ds ++ ds1 = [] := by
    intro h0
    have hu1 : u1 < 100 := by
      by_contra hc
      have := hone (by omega)
      omega
    obtain ⟨e1, e2⟩ := hsmall hu1
    rw [e1, hsmall1 (by omega)]
    rfl
  by_cases h10 : us ≥ 10
  · refine ⟨strconv.smallsString.getD (us * 2) 0 ::
      strconv.smallsString.getD (us * 2 + 1) 0 :: (ds ++ ds1), ?_, by simp, ?_, ?_, ?_⟩
    · cases neg <;> simp [h10]
    · intro c hc
      simp only [List.mem_cons] at hc
      rcases hc with rfl | rfl | hc
      · exact hhi
      · exact hlo
      · exact hall c hc
    · simp only [decimalValue, List.foldl_cons, t1, t2]
      rw [← hvalall]
      congr 1
      omega
    · intro hh
      exfalso
      simp only [List.head?_cons, Option.some.injEq] at hh
      rw [hh] at t1
      have : (48 : Byte).toNat = 48 := by decide
      omega
  · refine ⟨strconv.smallsString.getD (us * 2 + 1) 0 :: (ds ++ ds1), ?_, by simp, ?_, ?_, ?_⟩
    · cases neg <;> simp [h10]
    · intro c hc
      simp only [List.mem_cons] at hc
      rcases hc with rfl | hc
      · exact hlo
      · exact hall c hc
    · simp only [decimalValue, List.foldl_cons, t2]
      rw [← hvalall]
      congr 1
      omega
    · intro hh
      simp only [List.head?_cons, Option.some.injEq] at hh
      rw [hh] at t2
      have h48 : (48 : Byte).toNat = 48 := by decide
      have hus : us = 0 := by omega
      rw [hzero hus, hh]

/-- `FormatInt` renders every `int64` canonically. -/
theorem FormatInt_canonical (intSize : Nat) (i : Int) (h : inSigned 64 i) :
    isCanonicalDecimal i (strconv.FormatInt intSize i) := by
  rw [inSigned_64_iff] at h
  unfold strconv.FormatInt strconv.nSmalls
  by_cases hs : 0 ≤ i ∧ i < 100
  · rw [if_pos hs]
    obtain ⟨h1, h2, h3, h4⟩ := small_spec i.toNat (by omega)
    refine ⟨strconv.small i.toNat, ?_, h1, ?_, ?_, h4⟩
    · rw [if_neg (by omega)]; rfl
    · intro c hc
      exact List.all_eq_true.1 h2 c hc
    · rw [h3]; omega
  · rw [if_neg hs]
    have e64 : (2 : Nat) ^ 64 = 18446744073709551616 := by norm_num
    have i64 : (2 : Int) ^ 64 = 18446744073709551616 := by norm_num
    by_cases hneg : i < 0
    · have hd : decide (i < 0) = true := by simpa using hneg
      have hm : (2 ^ 64 - (i % 2 ^ 64).toNat) % 2 ^ 64 = i.natAbs := by
        rw [e64, i64]; omega
      obtain ⟨ds, heq, hne, hdig, hval, hhead⟩ := formatBits_spec (strconv.host32bit intSize) (i % 2 ^ 64).toNat true
        (by rw [if_pos rfl, hm, e64]; omega)
      rw [if_pos rfl, hm] at hval
      rw [hd]
      exact ⟨ds, by rw [heq, if_pos rfl, if_pos hneg], hne, hdig, hval, hhead⟩
    · have hd : decide (i < 0) = false := by simpa using hneg
      have hm : (i % 2 ^ 64).toNat = i.natAbs := by
        rw [i64]; omega
      obtain ⟨ds, heq, hne, hdig, hval, hhead⟩ := formatBits_spec (strconv.host32bit intSize) (i % 2 ^ 64).toNat false
        (by rw [if_neg (by simp), hm, e64]; omega)
      rw [if_neg (by simp), hm] at hval
      rw [hd]
      exact ⟨ds, by rw [heq, if_neg (by simp), if_neg hneg], hne, hdig, hval, hhead⟩


/-! ## Quote stripping and well-formed tokens -/

theorem isDigit_ne (x c : Byte) (h : isDigit x = true) (hc : c.toNat < 48) : x ≠ c := by
  rw [isDigit_iff] at h
  exact byte_ne_of_toNat_ne (by omega)

/-- One more pair of surrounding quotes does not change the quote-stripped text. -/
theorem stripQuotes_wrap (t : List Byte) : stripQuotes (34 :: t ++ [34]) = stripQuotes t := by
  rw [← Trim_eq_stripQuotes, ← Trim_eq_stripQuotes]
  unfold strings.Trim
  rw [trimRightByte_concat, if_pos rfl, strings.trimRightByte]
  cases h : strings.trimRightByte t 34 with
  | nil => simp [strings.trimLeftByte]
  | cons r rs => simp [strings.trimLeftByte]

/-- A text that neither starts nor ends with a quote is left as it is. -/
theorem stripQuotes_fixed (s : List Byte) (h1 : s.head? ≠ some 34) (h2 : s.getLast? ≠ some 34) :
    stripQuotes s = s := by
  rw [← Trim_eq_stripQuotes]
  unfold strings.Trim
  have hr : strings.trimRightByte s 34 = s := by
    induction s using List.reverseRecOn with
    | nil => rfl
    | append_singleton r x =>
      rw [trimRightByte_concat, if_neg]
      intro e; subst e; simp at h2
  rw [hr]
  cases s with
  | nil => rfl
  | cons x xs =>
    rw [strings.trimLeftByte, if_neg]
    intro e; subst e; simp at h1

/-- Shape facts about `sign ++ ds` and `sign ++ ds ++ [%]` for a sign and digits. -/
theorem body_facts (sign ds : List Byte) (pct : Bool)
    (hsign : sign = [] ∨ sign = [43] ∨ sign = [45]) (hne : ds ≠ [])
    (hd : ∀ c ∈ ds, isDigit c = true) :
    (sign ++ ds ++ (if pct then [37] else [])).head? ≠ some 34 ∧
    (sign ++ ds ++ (if pct then [37] else [])).getLast? ≠ some 34 ∧
    ((sign ++ ds ++ (if pct then [37] else [])).getLast? == some 37) = pct ∧
    (sign ++ ds ++ [37]).dropLast = sign ++ ds := by
  obtain ⟨x, xs, rfl⟩ := List.exists_cons_of_ne_nil hne
  obtain ⟨ys, y, hy⟩ : ∃ ys y, x :: xs = ys ++ [y] :=
    ⟨(x :: xs).dropLast, (x :: xs).getLast (by simp), (List.dropLast_append_getLast _).symm⟩
  have hx : isDigit x = true := hd x (by simp)
  have hylast : isDigit y = true := hd y (by rw [hy]; simp)
  have x34 := isDigit_ne x 34 hx (by decide)
  have y34 := isDigit_ne y 34 hylast (by decide)
  have y37 := isDigit_ne y 37 hylast (by decide)
  refine ⟨?_, ?_, ?_, ?_⟩
  · rcases hsign with rfl | rfl | rfl <;> simp [x34]
  · rw [hy]
    cases pct
    · simp only [Bool.false_eq_true, if_false, List.append_nil, ← List.append_assoc,
        List.getLast?_append, List.getLast?_singleton]
      simpa using y34
    · simp [← List.append_assoc]
  · rw [hy]
    cases pct
    · simp only [Bool.false_eq_true, if_false, List.append_nil, ← List.append_assoc,
        List.getLast?_append, List.getLast?_singleton]
      simpa using y37
    · simp [← List.append_assoc]
  · rw [List.dropLast_concat]

/-- The quote-stripped text, the flag and the numeric text of a well-formed token. -/
theorem wellFormedToken_facts (quoted : Bool) (sign ds : List Byte) (pct : Bool)
    (hsign : sign = [] ∨ sign = [43] ∨ sign = [45]) (hne : ds ≠ [])
    (hd : ∀ c ∈ ds, isDigit c = true) :
    numericText (wellFormedToken quoted sign ds pct) = sign ++ ds ∧
    endsWithPercent (wellFormedToken quoted sign ds pct) = pct ∧
    isSignedDecimal (sign ++ ds) = true := by
  obtain ⟨f1, f2, f3, f4⟩ := body_facts sign ds pct hsign hne hd
  have hstrip : stripQuotes (wellFormedToken quoted sign ds pct)
      = sign ++ ds ++ (if pct then [37] else []) := by
    unfold wellFormedToken
    cases quoted
    · simp only [Bool.false_eq_true, if_false, List.nil_append, List.append_nil]
      exact stripQuotes_fixed _ f1 f2
    · simp only [if_true, List.singleton_append]
      rw [stripQuotes_wrap]
      exact stripQuotes_fixed _ f1 f2
  have hends : endsWithPercent (wellFormedToken quoted sign ds pct) = pct := by
    unfold endsWithPercent
    rw [hstrip, f3]
  refine ⟨?_, hends, ?_⟩
  · unfold numericText
    rw [hends, hstrip]
    cases pct
    · simp
    · simp only [if_true]
      exact f4
  · obtain ⟨x, xs, rfl⟩ := List.exists_cons_of_ne_nil hne
    have hx : isDigit x = true := hd x (by simp)
    have x43 := isDigit_ne x 43 hx (by decide)
    have x45 := isDigit_ne x 45 hx (by decide)
    have hall : (x :: xs).all isDigit = true := List.all_eq_true.2 hd
    rcases hsign with rfl | rfl | rfl
    · simp only [List.nil_append, isSignedDecimal, x43, x45, or_self, if_false]
      exact hall
    · simp only [List.singleton_append, isSignedDecimal, true_or, if_true, hall]
      rfl
    · simp only [List.singleton_append, isSignedDecimal, or_true, if_true, hall]
      rfl

/-- `UnmarshalJSON` accepts exactly on a signed decimal in the 64-bit range: the result. -/
theorem UnmarshalJSON_accept (intSize : Nat) (p : Percentage) (b : List Byte)
    (h1 : isSignedDecimal (numericText b) = true)
    (h2 : inSigned 64 (signedDecimalValue (numericText b))) :
    Percentage.UnmarshalJSON intSize p b =
      ({ Number := wrapSigned intSize (signedDecimalValue (numericText b)),
         HasSuffix := endsWithPercent b }, none) := by
  rw [UnmarshalJSON_eq, ParseInt_signedDecimal_ok _ h1 h2]

/-- `UnmarshalJSON` on any other token: an error, and the target as it was. -/
theorem UnmarshalJSON_reject (intSize : Nat) (p : Percentage) (b : List Byte)
    (h : ¬ (isSignedDecimal (numericText b) = true ∧
      inSigned 64 (signedDecimalValue (numericText b)))) :
    ∃ k, Percentage.UnmarshalJSON intSize p b =
      (p, some (fmt.Errorf { Func := "ParseInt", Num := numericText b, Err := k })) := by
  rw [UnmarshalJSON_eq]
  by_cases h1 : isSignedDecimal (numericText b) = true
  · have h2 : ¬ inSigned 64 (signedDecimalValue (numericText b)) := fun h2 => h ⟨h1, h2⟩
    obtain ⟨v, hv⟩ := ParseInt_signedDecimal_range _ h1 h2
    rw [hv]
    exact ⟨_, rfl⟩
  · obtain ⟨v, k, hv⟩ := ParseInt_malformed _ (by simpa using h1)
    rw [hv]
    exact ⟨_, rfl⟩

/-! ## `json.Marshal` and the text of a `Percentage` -/

/-- Bytes in `htmlSafeSet` pass through `json.appendString` unchanged. -/
theorem appendStringLoop_safe (s : List Byte) (h : ∀ c ∈ s, json.htmlSafeSet c = true) :
    json.appendStringLoop 0 true s = s := by
  induction s with
  | nil => rfl
  | cons c s ih =>
    have hc := h c (by simp)
    have hlt : c.toNat < 0x80 := by
      simp only [json.htmlSafeSet, Bool.and_eq_true, decide_eq_true_eq] at hc
      exact hc.1.2
    rw [json.appendStringLoop, if_pos hlt, if_pos hc, ih (fun x hx => h x (by simp [hx]))]

theorem htmlSafeSet_of_isDigit (c : Byte) (h : isDigit c = true) : json.htmlSafeSet c = true := by
  have h34 := isDigit_ne c 34 h (by decide)
  have h38 := isDigit_ne c 38 h (by decide)
  have h60 : c ≠ 60 := by
    rw [isDigit_iff] at h
    exact byte_ne_of_toNat_ne (by have : (60 : Byte).toNat = 60 := by decide
                                  omega)
  have h62 : c ≠ 62 := by
    rw [isDigit_iff] at h
    exact byte_ne_of_toNat_ne (by have : (62 : Byte).toNat = 62 := by decide
                                  omega)
  have h92 : c ≠ 92 := by
    rw [isDigit_iff] at h
    exact byte_ne_of_toNat_ne (by have : (92 : Byte).toNat = 92 := by decide
                                  omega)
  rw [isDigit_iff] at h
  simp only [json.htmlSafeSet, h34, h38, h60, h62, h92, Bool.and_eq_true, decide_eq_true_eq]
  simp
  omega

theorem inSigned_wrapSigned_64 (x : Int) : inSigned 64 (wrapSigned 64 x) := by
  rw [inSigned_64_iff]
  simp only [wrapSigned]
  norm_num
  omega

/-- The text of a `Percentage` whose number is an `int64` is a well-formed token: a `-` when
the number is negative, digits denoting the number, and `%` when the flag is set. -/
theorem String_shape (intSize : Nat) (n : Int) (b : Bool) (h : inSigned 64 n) :
    ∃ ds : List Byte,
      Percentage.String intSize ⟨n, b⟩
        = wellFormedToken false (if n < 0 then [45] else []) ds b ∧
      ds ≠ [] ∧ (∀ c ∈ ds, isDigit c = true) ∧
      signedDecimalValue ((if n < 0 then [45] else []) ++ ds) = n ∧
      isCanonicalDecimal n ((if n < 0 then [45] else []) ++ ds) := by
  obtain ⟨ds, heq, hne, hdig, hval, hhead⟩ := FormatInt_canonical intSize n h
  refine ⟨ds, ?_, hne, hdig, ?_, ⟨ds, rfl, hne, hdig, hval, hhead⟩⟩
  · unfold Percentage.String wellFormedToken
    simp only [wrapSigned_of_inSigned 64 n (by norm_num) h, heq, ascii_percent,
      Bool.false_eq_true, if_false, List.nil_append, List.append_nil]
    cases b <;> simp
  · by_cases hneg : n < 0
    · simp only [hneg, if_true, List.singleton_append, signedDecimalValue, hval]
      omega
    · obtain ⟨x, xs, rfl⟩ := List.exists_cons_of_ne_nil hne
      have hx : isDigit x = true := hdig x (by simp)
      have x43 := isDigit_ne x 43 hx (by decide)
      have x45 := isDigit_ne x 45 hx (by decide)
      simp only [hneg, if_false, List.nil_append, signedDecimalValue, x43, x45, hval]
      omega

/-- The bytes of the text of a `Percentage` are all in `htmlSafeSet`. -/
theorem String_safe (intSize : Nat) (p : Percentage) :
    ∀ c ∈ p.String intSize, json.htmlSafeSet c = true := by
  obtain ⟨n, b⟩ := p
  have hw : Percentage.String intSize ⟨n, b⟩
      = Percentage.String intSize ⟨wrapSigned 64 n, b⟩ := by
    unfold Percentage.String
    simp only [wrapSigned_of_inSigned 64 _ (by norm_num) (inSigned_wrapSigned_64 n)]
  obtain ⟨ds, heq, -, hdig, -, -⟩ :=
    String_shape intSize (wrapSigned 64 n) b (inSigned_wrapSigned_64 n)
  rw [hw, heq]
  intro c hc
  unfold wellFormedToken at hc
  simp only [Bool.false_eq_true, if_false, List.nil_append, List.append_nil,
    List.mem_append] at hc
  rcases hc with (hc | hc) | hc
  · split_ifs at hc
    · simp only [List.mem_singleton] at hc; subst hc; decide
    · simp at hc
  · exact htmlSafeSet_of_isDigit c (hdig c hc)
  · split_ifs at hc
    · simp only [List.mem_singleton] at hc; subst hc; decide
    · simp at hc

theorem mem_of_mem_stripQuotes (b : List Byte) (x : Byte) (h : x ∈ stripQuotes b) : x ∈ b := by
  unfold stripQuotes at h
  exact (List.rdropWhile_prefix (fun c => c == 34) b).subset
    ((List.dropWhile_sublist (fun c => c == 34)).subset h)

/-- A token without `%` does not end with `%` once stripped. -/
theorem endsWithPercent_of_not_mem (b : List Byte) (h : (37 : Byte) ∉ b) :
    endsWithPercent b = false := by
  unfold endsWithPercent
  cases hl : (stripQuotes b).getLast? with
  | none => rfl
  | some x =>
    have hx : x ∈ b := mem_of_mem_stripQuotes b x (List.mem_of_getLast?_eq_some hl)
    have : x ≠ 37 := fun e => h (e ▸ hx)
    simpa using this

/-! ## The properties of `Percentage` -/

/-- Claim C1: round trip through text. For every `n` representable in the `Number` field (an
`int` of 32 or 64 bits) and both values of the flag, `UnmarshalJSON` on the text produced by
`String` returns no error and leaves the target equal to the value that was rendered,
whatever the target held before. -/
theorem UnmarshalJSON_String_roundtrip (intSize : Nat) (hw : intSize = 32 ∨ intSize = 64)
    (n : Int) (hn : inSigned intSize n) (b : Bool) (p0 : Percentage) :
    Percentage.UnmarshalJSON intSize p0 (Percentage.String intSize ⟨n, b⟩)
      = (⟨n, b⟩, none) := by
  have h64 : inSigned 64 n := by
    rw [inSigned_64_iff]
    rcases hw with rfl | rfl
    · simp only [inSigned] at hn; norm_num at hn; omega
    · rw [inSigned_64_iff] at hn; exact hn
  obtain ⟨ds, heq, hne, hdig, hval, -⟩ := String_shape intSize n b h64
  have hsign : (if n < 0 then [45] else []) = ([] : List Byte) ∨
      (if n < 0 then [45] else []) = ([43] : List Byte) ∨
      (if n < 0 then [45] else []) = ([45] : List Byte) := by
    by_cases h : n < 0 <;> simp [h]
  obtain ⟨f1, f2, f3⟩ := wellFormedToken_facts false _ ds b hsign hne hdig
  rw [heq, UnmarshalJSON_accept intSize p0 _ (by rw [f1]; exact f3)
    (by rw [f1, hval]; exact h64), f1, f2, hval,
    wrapSigned_of_inSigned intSize n (by rcases hw with rfl | rfl <;> norm_num) hn]

theorem UnmarshalJSON_String_roundtrip_witness :
    inSigned 32 (-5) ∧
    Percentage.UnmarshalJSON 32 ⟨7, false⟩ (Percentage.String 32 ⟨-5, true⟩)
      = (⟨-5, true⟩, none) :=
  ⟨by decide, UnmarshalJSON_String_roundtrip 32 (Or.inl rfl) (-5) (by decide) true ⟨7, false⟩⟩

/-- Claim C9: encoding is always a quoted string. For every `Percentage` value `p`,
`MarshalJSON` returns no error and its output is a double quote, then `p.String()` with no
byte escaped or altered, then a double quote; so the output starts with a double quote and is
never a bare numeric literal. -/
theorem MarshalJSON_quoted (intSize : Nat) (p : Percentage) :
    Percentage.MarshalJSON intSize p = (34 :: p.String intSize ++ [34], none) ∧
    (Percentage.MarshalJSON intSize p).1.head? = some 34 := by
  have h : Percentage.MarshalJSON intSize p = (34 :: p.String intSize ++ [34], none) := by
    unfold Percentage.MarshalJSON json.Marshal json.appendString
    rw [appendStringLoop_safe _ (String_safe intSize p)]
  exact ⟨h, by rw [h]; rfl⟩

/-- The JSON encoding of a `Percentage` holding an `int64`, as a well-formed token. -/
theorem MarshalJSON_shape (intSize : Nat) (n : Int) (b : Bool) (h : inSigned 64 n) :
    ∃ ds : List Byte,
      Percentage.MarshalJSON intSize ⟨n, b⟩
        = (wellFormedToken true (if n < 0 then [45] else []) ds b, none) ∧
      ds ≠ [] ∧ (∀ c ∈ ds, isDigit c = true) ∧
      signedDecimalValue ((if n < 0 then [45] else []) ++ ds) = n := by
  obtain ⟨ds, heq, hne, hdig, hval, -⟩ := String_shape intSize n b h
  refine ⟨ds, ?_, hne, hdig, hval⟩
  have hm : Percentage.MarshalJSON intSize ⟨n, b⟩
      = (34 :: Percentage.String intSize ⟨n, b⟩ ++ [34], none) := by
    unfold Percentage.MarshalJSON json.Marshal json.appendString
    rw [appendStringLoop_safe _ (String_safe intSize ⟨n, b⟩)]
  rw [hm, heq]
  simp [wellFormedToken]

/-- Claim C2: encode, decode, re-encode. For every `Percentage` value `p` (its `Number` an
`int` of 32 or 64 bits), `MarshalJSON p` succeeds with a token `t`, `UnmarshalJSON` on `t`
succeeds with the value `p` again, and `MarshalJSON` of the decoded value is the same token. -/
theorem MarshalJSON_UnmarshalJSON_MarshalJSON (intSize : Nat)
    (hw : intSize = 32 ∨ intSize = 64) (p : Percentage) (hp : inSigned intSize p.Number)
    (p0 : Percentage) :
    (Percentage.MarshalJSON intSize p).2 = none ∧
    Percentage.UnmarshalJSON intSize p0 (Percentage.MarshalJSON intSize p).1 = (p, none) ∧
    Percentage.MarshalJSON intSize
        (Percentage.UnmarshalJSON intSize p0 (Percentage.MarshalJSON intSize p).1).1
      = Percentage.MarshalJSON intSize p := by
  obtain ⟨n, b⟩ := p
  have h64 : inSigned 64 n := by
    rw [inSigned_64_iff]
    rcases hw with rfl | rfl
    · simp only [inSigned] at hp; norm_num at hp; omega
    · rw [inSigned_64_iff] at hp; exact hp
  obtain ⟨ds, heq, hne, hdig, hval⟩ := MarshalJSON_shape intSize n b h64
  have hsign : (if n < 0 then [45] else []) = ([] : List Byte) ∨
      (if n < 0 then [45] else []) = ([43] : List Byte) ∨
      (if n < 0 then [45] else []) = ([45] : List Byte) := by
    by_cases h : n < 0 <;> simp [h]
  obtain ⟨f1, f2, f3⟩ := wellFormedToken_facts true _ ds b hsign hne hdig
  have hu : Percentage.UnmarshalJSON intSize p0 (Percentage.MarshalJSON intSize ⟨n, b⟩).1
      = (⟨n, b⟩, none) := by
    rw [heq]
    simp only
    rw [UnmarshalJSON_accept intSize p0 _ (by rw [f1]; exact f3)
      (by rw [f1, hval]; exact h64), f1, f2, hval,
      wrapSigned_of_inSigned intSize n (by rcases hw with rfl | rfl <;> norm_num) hp]
  refine ⟨by rw [heq], hu, by rw [hu]⟩

theorem MarshalJSON_UnmarshalJSON_MarshalJSON_witness :
    inSigned 64 (75 : Int) ∧
    (Percentage.MarshalJSON 64 ⟨75, true⟩).2 = none ∧
    Percentage.UnmarshalJSON 64 ⟨0, false⟩ (Percentage.MarshalJSON 64 ⟨75, true⟩).1
      = (⟨75, true⟩, none) ∧
    Percentage.MarshalJSON 64
        (Percentage.UnmarshalJSON 64 ⟨0, false⟩ (Percentage.MarshalJSON 64 ⟨75, true⟩).1).1
      = Percentage.MarshalJSON 64 ⟨75, true⟩ :=
  ⟨by decide, MarshalJSON_UnmarshalJSON_MarshalJSON 64 (Or.inr rfl) ⟨75, true⟩ (by decide)
    ⟨0, false⟩⟩

/-- Claim C3, as stated, fails where `int` is 32 bits wide: the token `2147483648` is
well formed and denotes a value in the signed 64-bit range, `UnmarshalJSON` returns no error,
but the stored `Number` is `-2147483648`, the value converted to `int`, not the value. -/
theorem UnmarshalJSON_wellFormed_int32_counterexample :
    (∀ c ∈ ascii "2147483648", isDigit c = true) ∧
    inSigned 64 (signedDecimalValue ([] ++ ascii "2147483648")) ∧
    signedDecimalValue ([] ++ ascii "2147483648") = 2147483648 ∧
    Percentage.UnmarshalJSON 32 ⟨0, false⟩ (wellFormedToken false [] (ascii "2147483648") false)
      = (⟨-2147483648, false⟩, none) ∧
    (Percentage.UnmarshalJSON 32 ⟨0, false⟩
        (wellFormedToken false [] (ascii "2147483648") false)).1.Number
      ≠ signedDecimalValue ([] ++ ascii "2147483648") := by
  decide

/-- Claim C3, amended: parse correctness on well-formed tokens. For every token that is,
optionally wrapped in double quotes, an optional sign followed by one or more decimal digits
denoting an integer `v` in the signed 64-bit range, optionally followed by one `%`,
`UnmarshalJSON` returns no error and sets `HasSuffix` to whether the `%` was present and
`Number` to `v` converted to `int`; that is `v` itself whenever `v` is representable in `int`,
which is always so when `int` is 64 bits wide. -/
theorem UnmarshalJSON_wellFormed (intSize : Nat) (hw : intSize = 32 ∨ intSize = 64)
    (p0 : Percentage) (quoted : Bool) (sign ds : List Byte) (pct : Bool)
    (hsign : sign = [] ∨ sign = [43] ∨ sign = [45]) (hne : ds ≠ [])
    (hd : ∀ c ∈ ds, isDigit c = true)
    (hv : inSigned 64 (signedDecimalValue (sign ++ ds))) :
    Percentage.UnmarshalJSON intSize p0 (wellFormedToken quoted sign ds pct)
      = (⟨wrapSigned intSize (signedDecimalValue (sign ++ ds)), pct⟩, none) ∧
    (inSigned intSize (signedDecimalValue (sign ++ ds)) →
      Percentage.UnmarshalJSON intSize p0 (wellFormedToken quoted sign ds pct)
        = (⟨signedDecimalValue (sign ++ ds), pct⟩, none)) ∧
    (intSize = 64 →
      Percentage.UnmarshalJSON intSize p0 (wellFormedToken quoted sign ds pct)
        = (⟨signedDecimalValue (sign ++ ds), pct⟩, none)) := by
  obtain ⟨f1, f2, f3⟩ := wellFormedToken_facts quoted sign ds pct hsign hne hd
  have hu : Percentage.UnmarshalJSON intSize p0 (wellFormedToken quoted sign ds pct)
      = (⟨wrapSigned intSize (signedDecimalValue (sign ++ ds)), pct⟩, none) := by
    rw [UnmarshalJSON_accept intSize p0 _ (by rw [f1]; exact f3) (by rw [f1]; exact hv), f1, f2]
  have hb : 1 ≤ intSize := by rcases hw with rfl | rfl <;> norm_num
  refine ⟨hu, fun h => ?_, fun h => ?_⟩
  · rw [hu, wrapSigned_of_inSigned intSize _ hb h]
  · subst h
    rw [hu, wrapSigned_of_inSigned 64 _ hb hv]

theorem UnmarshalJSON_wellFormed_witness :
    ((∀ c ∈ ascii "5", isDigit c = true) ∧
      inSigned 64 (signedDecimalValue ([45] ++ ascii "5")) ∧
      Percentage.UnmarshalJSON 64 ⟨9, false⟩ (ascii "\"-5%\"") = (⟨-5, true⟩, none)) ∧
    Percentage.UnmarshalJSON 64 ⟨9, true⟩ (ascii "\"0\"") = (⟨0, false⟩, none) ∧
    Percentage.UnmarshalJSON 32 ⟨9, false⟩ (ascii "\"0%\"") = (⟨0, true⟩, none) :=
  ⟨⟨by decide, by decide,
    (UnmarshalJSON_wellFormed 64 (Or.inr rfl) ⟨9, false⟩ true [45] (ascii "5") true
      (Or.inr (Or.inr rfl)) (by decide) (by decide) (by decide)).2.2 rfl⟩,
   (UnmarshalJSON_wellFormed 64 (Or.inr rfl) ⟨9, true⟩ true [] (ascii "0") false
      (Or.inl rfl) (by decide) (by decide) (by decide)).2.2 rfl,
   (UnmarshalJSON_wellFormed 32 (Or.inl rfl) ⟨9, false⟩ true [] (ascii "0") true
      (Or.inl rfl) (by decide) (by decide) (by decide)).2.1 (by decide)⟩

/-- Claim C4, as stated, fails: the text `9223372036854775808` is an optional sign followed
by decimal digits, yet `UnmarshalJSON` returns an error, because the value does not fit in
64 bits. -/
theorem UnmarshalJSON_error_iff_counterexample :
    isSignedDecimal (numericText (ascii "9223372036854775808")) = true ∧
    (Percentage.UnmarshalJSON 64 ⟨0, false⟩ (ascii "9223372036854775808")).2.isSome = true := by
  decide

/-- Claim C4, amended: the error condition is exact. For every token, `UnmarshalJSON` returns
an error if and only if the text left after stripping the surrounding quotes and one trailing
`%` is not an optional `+` or `-` followed by one or more decimal digits denoting a value in
the signed 64-bit range; nothing else is validated, so every such integer (negative, above
100) is accepted. -/
theorem UnmarshalJSON_error_iff (intSize : Nat) (p0 : Percentage) (b : List Byte) :
    (Percentage.UnmarshalJSON intSize p0 b).2.isSome = true ↔
      ¬ (isSignedDecimal (numericText b) = true ∧
        inSigned 64 (signedDecimalValue (numericText b))) := by
  constructor
  · intro h hacc
    rw [UnmarshalJSON_accept intSize p0 b hacc.1 hacc.2] at h
    simp at h
  · intro h
    obtain ⟨k, hk⟩ := UnmarshalJSON_reject intSize p0 b h
    rw [hk]
    rfl

/-- Claim C5: malformed tokens are rejected. For every token whose text after stripping the
surrounding quotes and one trailing `%` is not an optional sign followed by one or more
decimal digits (it is empty, a bare sign, or holds a byte that is not a digit),
`UnmarshalJSON` returns an error. -/
theorem UnmarshalJSON_malformed_rejected (intSize : Nat) (p0 : Percentage) (b : List Byte)
    (h : isSignedDecimal (numericText b) = false) :
    (Percentage.UnmarshalJSON intSize p0 b).2.isSome = true := by
  obtain ⟨k, hk⟩ := UnmarshalJSON_reject intSize p0 b (by simp [h])
  rw [hk]
  rfl

theorem UnmarshalJSON_malformed_rejected_witness :
    (isSignedDecimal (numericText (ascii "\"abc\"")) = false ∧
      (Percentage.UnmarshalJSON 64 ⟨0, false⟩ (ascii "\"abc\"")).2.isSome = true) ∧
    (isSignedDecimal (numericText (ascii "\"%\"")) = false ∧
      (Percentage.UnmarshalJSON 64 ⟨0, false⟩ (ascii "\"%\"")).2.isSome = true) ∧
    (isSignedDecimal (numericText (ascii "\"-\"")) = false ∧
      (Percentage.UnmarshalJSON 64 ⟨0, false⟩ (ascii "\"-\"")).2.isSome = true) :=
  ⟨⟨by decide, UnmarshalJSON_malformed_rejected 64 ⟨0, false⟩ _ (by decide)⟩,
   ⟨by decide, UnmarshalJSON_malformed_rejected 64 ⟨0, false⟩ _ (by decide)⟩,
   ⟨by decide, UnmarshalJSON_malformed_rejected 64 ⟨0, false⟩ _ (by decide)⟩⟩

/-- Claim C6: atomicity on failure. For every prior target value `p0` and every token on
which `UnmarshalJSON` returns an error, the target still equals `p0` afterwards. -/
theorem UnmarshalJSON_error_keeps_target (intSize : Nat) (p0 : Percentage) (b : List Byte)
    (h : (Percentage.UnmarshalJSON intSize p0 b).2.isSome = true) :
    (Percentage.UnmarshalJSON intSize p0 b).1 = p0 := by
  by_cases hacc : isSignedDecimal (numericText b) = true ∧
      inSigned 64 (signedDecimalValue (numericText b))
  · rw [UnmarshalJSON_accept intSize p0 b hacc.1 hacc.2] at h
    simp at h
  · obtain ⟨k, hk⟩ := UnmarshalJSON_reject intSize p0 b hacc
    rw [hk]

theorem UnmarshalJSON_error_keeps_target_witness :
    (Percentage.UnmarshalJSON 64 ⟨42, true⟩ (ascii "\"4x%\"")).2.isSome = true ∧
    (Percentage.UnmarshalJSON 64 ⟨42, true⟩ (ascii "\"4x%\"")).1 = ⟨42, true⟩ :=
  ⟨by decide, UnmarshalJSON_error_keeps_target 64 ⟨42, true⟩ (ascii "\"4x%\"") (by decide)⟩

/-- Claim C7: full replacement on success. For every token on which `UnmarshalJSON`
succeeds, the resulting target is a function of the token alone (the value of its numeric
text converted to `int`, and whether its quote-stripped text ends with `%`), the same from
every prior target; in particular, whatever the prior `HasSuffix`, it is `false` after a
token without `%`. -/
theorem UnmarshalJSON_success_replaces_target (intSize : Nat) (p0 : Percentage)
    (b : List Byte) (h : (Percentage.UnmarshalJSON intSize p0 b).2 = none) :
    (Percentage.UnmarshalJSON intSize p0 b).1
      = ⟨wrapSigned intSize (signedDecimalValue (numericText b)), endsWithPercent b⟩ ∧
    (∀ p1 : Percentage,
      Percentage.UnmarshalJSON intSize p1 b = Percentage.UnmarshalJSON intSize p0 b) ∧
    ((37 : Byte) ∉ b → (Percentage.UnmarshalJSON intSize p0 b).1.HasSuffix = false) := by
  by_cases hacc : isSignedDecimal (numericText b) = true ∧
      inSigned 64 (signedDecimalValue (numericText b))
  · refine ⟨?_, fun p1 => ?_, fun h37 => ?_⟩
    · rw [UnmarshalJSON_accept intSize p0 b hacc.1 hacc.2]
    · rw [UnmarshalJSON_accept intSize p0 b hacc.1 hacc.2,
        UnmarshalJSON_accept intSize p1 b hacc.1 hacc.2]
    · rw [UnmarshalJSON_accept intSize p0 b hacc.1 hacc.2]
      exact endsWithPercent_of_not_mem b h37
  · obtain ⟨k, hk⟩ := UnmarshalJSON_reject intSize p0 b hacc
    rw [hk] at h
    simp at h

theorem UnmarshalJSON_success_replaces_target_witness :
    (Percentage.UnmarshalJSON 64 ⟨3, true⟩ (ascii "\"10\"")).2 = none ∧
    (37 : Byte) ∉ ascii "\"10\"" ∧
    (Percentage.UnmarshalJSON 64 ⟨3, true⟩ (ascii "\"10\"")).1 = ⟨10, false⟩ ∧
    (Percentage.UnmarshalJSON 64 ⟨3, true⟩ (ascii "\"10\"")).1.HasSuffix = false :=
  ⟨by decide, by decide,
    (UnmarshalJSON_success_replaces_target 64 ⟨3, true⟩ (ascii "\"10\"") (by decide)).1,
    (UnmarshalJSON_success_replaces_target 64 ⟨3, true⟩ (ascii "\"10\"") (by decide)).2.2
      (by decide)⟩

/-- Claim C8: format to text. For every `n` (an `int`, so within the signed 64-bit range),
`Percentage{n, false}.String()` is the canonical base-10 signed rendering of `n`: a `-`
exactly when `n < 0`, then the digits of `|n|` with no leading zero and no `+`; and
`Percentage{n, true}.String()` is that text with exactly one `%` appended. -/
theorem String_canonical (intSize : Nat) (n : Int) (hn : inSigned 64 n) :
    isCanonicalDecimal n (Percentage.String intSize ⟨n, false⟩) ∧
    Percentage.String intSize ⟨n, true⟩ = Percentage.String intSize ⟨n, false⟩ ++ [37] := by
  obtain ⟨ds, heq, -, -, -, hcan⟩ := String_shape intSize n false hn
  refine ⟨?_, ?_⟩
  · rw [heq]
    simpa [wellFormedToken] using hcan
  · simp [Percentage.String, ascii_percent]

theorem String_canonical_witness :
    inSigned 64 (-120) ∧
    isCanonicalDecimal (-120) (Percentage.String 64 ⟨-120, false⟩) ∧
    Percentage.String 64 ⟨-120, false⟩ = ascii "-120" ∧
    Percentage.String 64 ⟨-120, true⟩ = Percentage.String 64 ⟨-120, false⟩ ++ [37] :=
  ⟨by decide, (String_canonical 64 (-120) (by decide)).1, by decide,
    (String_canonical 64 (-120) (by decide)).2⟩

/-- Claim C10: suffix independence of the numeric value. For every `n`,
`Percentage{n, true}.Int()` and `Percentage{n, false}.Int()` are both `n`. -/
theorem Int_suffix_independent (n : Int) :
    Percentage.Int ⟨n, true⟩ = Percentage.Int ⟨n, false⟩ ∧ Percentage.Int ⟨n, false⟩ = n :=
  ⟨rfl, rfl⟩


/-! ## The `%` marker, quote stripping, range and normalisation -/

/-- A text without a double quote is its own quote-stripped text. -/
theorem stripQuotes_of_not_mem (s : List Byte) (h : (34 : Byte) ∉ s) : stripQuotes s = s := by
  apply stripQuotes_fixed
  · intro e
    exact h (List.mem_of_mem_head? e)
  · intro e
    exact h (List.mem_of_getLast?_eq_some e)

/-- For a text without a double quote that does not end in `%`: the numeric text and the flag
of the text itself and of the text followed by `%`. -/
theorem percent_marker_facts (s : List Byte) (hq : (34 : Byte) ∉ s)
    (hp : s.getLast? ≠ some 37) :
    numericText s = s ∧ endsWithPercent s = false ∧
    numericText (s ++ [37]) = s ∧ endsWithPercent (s ++ [37]) = true := by
  have h1 : stripQuotes s = s := stripQuotes_of_not_mem s hq
  have h2 : stripQuotes (s ++ [37]) = s ++ [37] := by
    apply stripQuotes_of_not_mem
    intro hm
    rcases List.mem_append.1 hm with hm | hm
    · exact hq hm
    · simp at hm
  have e1 : endsWithPercent s = false := by
    unfold endsWithPercent
    rw [h1]
    cases hl : s.getLast? with
    | none => rfl
    | some x =>
      have : x ≠ 37 := fun e => hp (by rw [hl, e])
      simpa using this
  have e2 : endsWithPercent (s ++ [37]) = true := by
    unfold endsWithPercent
    rw [h2]
    simp
  refine ⟨?_, e1, ?_, e2⟩
  · unfold numericText
    rw [e1, h1]
    rfl
  · unfold numericText
    rw [e2, h2]
    simp

/-- Claim C11: the `%` marker changes only the flag. For every text `s` that contains no
double quote and does not end in `%`, `UnmarshalJSON` succeeds on `s` if and only if it
succeeds on `s` followed by `%`, and when both succeed the two results have the same `Number`,
with `HasSuffix = false` for `s` and `HasSuffix = true` for `s` followed by `%`. -/
theorem UnmarshalJSON_percent_marker (intSize : Nat) (p0 : Percentage) (s : List Byte)
    (hq : (34 : Byte) ∉ s) (hp : s.getLast? ≠ some 37) :
    ((Percentage.UnmarshalJSON intSize p0 s).2 = none ↔
      (Percentage.UnmarshalJSON intSize p0 (s ++ [37])).2 = none) ∧
    ((Percentage.UnmarshalJSON intSize p0 s).2 = none →
      (Percentage.UnmarshalJSON intSize p0 (s ++ [37])).2 = none →
      (Percentage.UnmarshalJSON intSize p0 s).1.Number
          = (Percentage.UnmarshalJSON intSize p0 (s ++ [37])).1.Number ∧
        (Percentage.UnmarshalJSON intSize p0 s).1.HasSuffix = false ∧
        (Percentage.UnmarshalJSON intSize p0 (s ++ [37])).1.HasSuffix = true) := by
  obtain ⟨f1, f2, f3, f4⟩ := percent_marker_facts s hq hp
  rw [UnmarshalJSON_eq intSize p0 s, UnmarshalJSON_eq intSize p0 (s ++ [37]), f1, f2, f3, f4]
  rcases strconv.ParseInt s with ⟨v, _ | e⟩
  · exact ⟨Iff.rfl, fun _ _ => ⟨rfl, rfl, rfl⟩⟩
  · exact ⟨Iff.rfl, fun h => by simp at h⟩

theorem UnmarshalJSON_percent_marker_witness :
    ((34 : Byte) ∉ ascii "-12" ∧ (ascii "-12").getLast? ≠ some 37) ∧
    (Percentage.UnmarshalJSON 64 ⟨0, false⟩ (ascii "-12")).2 = none ∧
    (Percentage.UnmarshalJSON 64 ⟨0, false⟩ (ascii "-12" ++ [37])).2 = none ∧
    (Percentage.UnmarshalJSON 64 ⟨0, false⟩ (ascii "-12")).1.Number
        = (Percentage.UnmarshalJSON 64 ⟨0, false⟩ (ascii "-12" ++ [37])).1.Number ∧
      (Percentage.UnmarshalJSON 64 ⟨0, false⟩ (ascii "-12")).1.HasSuffix = false ∧
      (Percentage.UnmarshalJSON 64 ⟨0, false⟩ (ascii "-12" ++ [37])).1.HasSuffix = true :=
  ⟨⟨by decide, by decide⟩, by decide, by decide,
    (UnmarshalJSON_percent_marker 64 ⟨0, false⟩ (ascii "-12") (by decide) (by decide)).2
      (by decide) (by decide)⟩

/-- The outcome of `UnmarshalJSON` is determined by the quote-stripped token. -/
theorem UnmarshalJSON_congr_stripQuotes (intSize : Nat) (p0 : Percentage) (b b' : List Byte)
    (h : stripQuotes b = stripQuotes b') :
    Percentage.UnmarshalJSON intSize p0 b = Percentage.UnmarshalJSON intSize p0 b' := by
  have he : endsWithPercent b = endsWithPercent b' := by
    unfold endsWithPercent; rw [h]
  have hn : numericText b = numericText b' := by
    unfold numericText; rw [he, h]
  rw [UnmarshalJSON_eq intSize p0 b, UnmarshalJSON_eq intSize p0 b', he, hn]

/-- Claim C12: quote stripping. The outcome of `UnmarshalJSON` (the error or the resulting
value) depends only on the token with all leading and all trailing double quotes removed; for
every token `t`, parsing `t` and parsing `t` wrapped in one more pair of double quotes give the
same outcome. -/
theorem UnmarshalJSON_quote_stripping (intSize : Nat) (p0 : Percentage) (b b' : List Byte)
    (h : stripQuotes b = stripQuotes b') :
    Percentage.UnmarshalJSON intSize p0 b = Percentage.UnmarshalJSON intSize p0 b' ∧
    (∀ t : List Byte,
      Percentage.UnmarshalJSON intSize p0 (34 :: t ++ [34])
        = Percentage.UnmarshalJSON intSize p0 t) :=
  ⟨UnmarshalJSON_congr_stripQuotes intSize p0 b b' h,
   fun t => UnmarshalJSON_congr_stripQuotes intSize p0 _ _ (stripQuotes_wrap t)⟩

theorem UnmarshalJSON_quote_stripping_witness :
    stripQuotes (ascii "\"50") = stripQuotes (ascii "50") ∧
    Percentage.UnmarshalJSON 64 ⟨1, true⟩ (ascii "\"50")
      = Percentage.UnmarshalJSON 64 ⟨1, true⟩ (ascii "50") ∧
    Percentage.UnmarshalJSON 64 ⟨1, true⟩ (ascii "\"50\"")
      = Percentage.UnmarshalJSON 64 ⟨1, true⟩ (ascii "50") ∧
    Percentage.UnmarshalJSON 64 ⟨1, true⟩ (ascii "50") = (⟨50, false⟩, none) :=
  ⟨by decide,
   (UnmarshalJSON_quote_stripping 64 ⟨1, true⟩ (ascii "\"50") (ascii "50") (by decide)).1,
   (UnmarshalJSON_quote_stripping 64 ⟨1, true⟩ (ascii "\"50") (ascii "50") (by decide)).2
     (ascii "50"),
   by decide⟩

/-- Claim C14: out-of-range digits are rejected, not wrapped. For every token whose stripped
text is a sign-and-digits string denoting an integer above `2^63 - 1` or below `-2^63`,
`UnmarshalJSON` returns an error (wrapping the range error of `ParseInt`) and leaves the
target as it was, storing nothing; the bounds
`9223372036854775807` and `-9223372036854775808` themselves are accepted. -/
theorem UnmarshalJSON_out_of_range_rejected (intSize : Nat) (p0 : Percentage) (b : List Byte)
    (hs : isSignedDecimal (numericText b) = true)
    (hr : signedDecimalValue (numericText b) > 2 ^ 63 - 1 ∨
      signedDecimalValue (numericText b) < -(2 ^ 63)) :
    ((Percentage.UnmarshalJSON intSize p0 b).2
        = some (fmt.Errorf (strconv.rangeError "ParseInt" (numericText b))) ∧
      (Percentage.UnmarshalJSON intSize p0 b).1 = p0) ∧
    Percentage.UnmarshalJSON intSize p0 (ascii "9223372036854775807")
      = (⟨wrapSigned intSize 9223372036854775807, false⟩, none) ∧
    Percentage.UnmarshalJSON intSize p0 (ascii "-9223372036854775808")
      = (⟨wrapSigned intSize (-9223372036854775808), false⟩, none) ∧
    Percentage.UnmarshalJSON 64 p0 (ascii "9223372036854775807")
      = (⟨9223372036854775807, false⟩, none) ∧
    Percentage.UnmarshalJSON 64 p0 (ascii "-9223372036854775808")
      = (⟨-9223372036854775808, false⟩, none) := by
  have hnot : ¬ inSigned 64 (signedDecimalValue (numericText b)) := by
    intro h2
    rw [inSigned_64_iff] at h2
    norm_num at hr
    omega
  obtain ⟨v, hv⟩ := ParseInt_signedDecimal_range (numericText b) hs hnot
  refine ⟨by rw [UnmarshalJSON_eq, hv]; exact ⟨rfl, rfl⟩, ?_, ?_, ?_, ?_⟩
  · exact UnmarshalJSON_accept intSize p0 (ascii "9223372036854775807") (by decide) (by decide)
  · exact UnmarshalJSON_accept intSize p0 (ascii "-9223372036854775808") (by decide)
      (by decide)
  · exact UnmarshalJSON_accept 64 p0 (ascii "9223372036854775807") (by decide) (by decide)
  · exact UnmarshalJSON_accept 64 p0 (ascii "-9223372036854775808") (by decide) (by decide)

theorem UnmarshalJSON_out_of_range_rejected_witness :
    isSignedDecimal (numericText (ascii "\"9223372036854775808%\"")) = true ∧
    signedDecimalValue (numericText (ascii "\"9223372036854775808%\"")) > 2 ^ 63 - 1 ∧
    (Percentage.UnmarshalJSON 64 ⟨33, true⟩ (ascii "\"9223372036854775808%\"")).2
      = some (fmt.Errorf (strconv.rangeError "ParseInt" (ascii "9223372036854775808"))) ∧
    (Percentage.UnmarshalJSON 64 ⟨33, true⟩ (ascii "\"9223372036854775808%\"")).1
      = ⟨33, true⟩ :=
  ⟨by decide, by decide,
   (UnmarshalJSON_out_of_range_rejected 64 ⟨33, true⟩ (ascii "\"9223372036854775808%\"")
     (by decide) (Or.inl (by decide))).1⟩

theorem inSigned_wrapSigned (intSize : Nat) (hw : intSize = 32 ∨ intSize = 64) (x : Int) :
    inSigned intSize (wrapSigned intSize x) := by
  rcases hw with rfl | rfl
  · simp only [inSigned, wrapSigned]
    norm_num
    omega
  · exact inSigned_wrapSigned_64 x

/-- Parsing the text of a value whose number is an `int` gives the value back. -/
theorem UnmarshalJSON_String_of_inSigned (intSize : Nat) (hw : intSize = 32 ∨ intSize = 64)
    (q : Percentage) (hq : inSigned intSize q.Number) (p1 : Percentage) :
    Percentage.UnmarshalJSON intSize p1 (Percentage.String intSize q) = (q, none) := by
  obtain ⟨n, b⟩ := q
  have h64 : inSigned 64 n := by
    rw [inSigned_64_iff]
    rcases hw with rfl | rfl
    · simp only [inSigned] at hq; norm_num at hq; omega
    · rw [inSigned_64_iff] at hq; exact hq
  obtain ⟨ds, heq, hne, hdig, hval, -⟩ := String_shape intSize n b h64
  have hsign : (if n < 0 then [45] else []) = ([] : List Byte) ∨
      (if n < 0 then [45] else []) = ([43] : List Byte) ∨
      (if n < 0 then [45] else []) = ([45] : List Byte) := by
    by_cases h : n < 0 <;> simp [h]
  obtain ⟨f1, f2, f3⟩ := wellFormedToken_facts false _ ds b hsign hne hdig
  rw [heq, UnmarshalJSON_accept intSize p1 _ (by rw [f1]; exact f3)
    (by rw [f1, hval]; exact h64), f1, f2, hval,
    wrapSigned_of_inSigned intSize n (by rcases hw with rfl | rfl <;> norm_num) hq]

/-- Claim C15: decoding normalises text. Some accepted tokens re-encode by `String` to a text
other than the quote-stripped token (`+5` gives `5`, `007%` gives `7%`, `-0` gives `0`), so
text to value to text is not the identity; but for every accepted token the re-encoded text
decodes to the same value again. -/
theorem UnmarshalJSON_String_normalises (intSize : Nat) (hw : intSize = 32 ∨ intSize = 64)
    (p0 p1 : Percentage) (b : List Byte)
    (h : (Percentage.UnmarshalJSON intSize p0 b).2 = none) :
    Percentage.UnmarshalJSON intSize p1
        (Percentage.String intSize (Percentage.UnmarshalJSON intSize p0 b).1)
      = ((Percentage.UnmarshalJSON intSize p0 b).1, none) ∧
    (Percentage.UnmarshalJSON intSize ⟨0, false⟩ (ascii "+5") = (⟨5, false⟩, none) ∧
      Percentage.String intSize ⟨5, false⟩ = ascii "5" ∧
      ascii "5" ≠ stripQuotes (ascii "+5")) ∧
    (Percentage.UnmarshalJSON intSize ⟨0, false⟩ (ascii "007%") = (⟨7, true⟩, none) ∧
      Percentage.String intSize ⟨7, true⟩ = ascii "7%" ∧
      ascii "7%" ≠ stripQuotes (ascii "007%")) ∧
    (Percentage.UnmarshalJSON intSize ⟨0, false⟩ (ascii "-0") = (⟨0, false⟩, none) ∧
      Percentage.String intSize ⟨0, false⟩ = ascii "0" ∧
      ascii "0" ≠ stripQuotes (ascii "-0")) := by
  refine ⟨?_, ?_, ?_, ?_⟩
  · apply UnmarshalJSON_String_of_inSigned intSize hw
    by_cases hacc : isSignedDecimal (numericText b) = true ∧
        inSigned 64 (signedDecimalValue (numericText b))
    · rw [UnmarshalJSON_accept intSize p0 b hacc.1 hacc.2]
      exact inSigned_wrapSigned intSize hw _
    · obtain ⟨k, hk⟩ := UnmarshalJSON_reject intSize p0 b hacc
      rw [hk] at h
      simp at h
  · rcases hw with rfl | rfl <;> decide
  · rcases hw with rfl | rfl <;> decide
  · rcases hw with rfl | rfl <;> decide

theorem UnmarshalJSON_String_normalises_witness :
    (Percentage.UnmarshalJSON 64 ⟨0, false⟩ (ascii "\"+007%\"")).2 = none ∧
    (Percentage.UnmarshalJSON 64 ⟨0, false⟩ (ascii "\"+007%\"")).1 = ⟨7, true⟩ ∧
    Percentage.String 64 ⟨7, true⟩ = ascii "7%" ∧
    Percentage.UnmarshalJSON 64 ⟨9, false⟩
        (Percentage.String 64 (Percentage.UnmarshalJSON 64 ⟨0, false⟩ (ascii "\"+007%\"")).1)
      = ((Percentage.UnmarshalJSON 64 ⟨0, false⟩ (ascii "\"+007%\"")).1, none) :=
  ⟨by decide, by decide, by decide,
   (UnmarshalJSON_String_normalises 64 (Or.inr rfl) ⟨0, false⟩ ⟨9, false⟩
     (ascii "\"+007%\"") (by decide)).1⟩

/-! ## The content of the error -/

/-- Claim C13, as stated, fails for a token with a `%`: on the token `"50x%"` the returned
error carries the text `50x`, which is neither the token nor its quote-stripped text `50x%`,
and its message holds no `%` at all. -/
theorem UnmarshalJSON_error_content_counterexample :
    ∃ err : fmt.wrapError,
      (Percentage.UnmarshalJSON 64 ⟨0, false⟩ (ascii "\"50x%\"")).2 = some err ∧
      err.Unwrap.Num = ascii "50x" ∧
      err.Unwrap.Num ≠ ascii "\"50x%\"" ∧
      err.Unwrap.Num ≠ stripQuotes (ascii "\"50x%\"") ∧
      (∀ w, err.Error w
        = ascii "invalid percentage: strconv.ParseInt: parsing \"50x\": invalid syntax") ∧
      (37 : Byte) ∉
        ascii "invalid percentage: strconv.ParseInt: parsing \"50x\": invalid syntax" :=
  ⟨fmt.Errorf (strconv.syntaxError "ParseInt" (ascii "50x")), by decide, by decide, by decide,
    by decide, fun _ => rfl, by decide⟩

/-- Claim C13, amended: error content. Whenever `UnmarshalJSON` fails, the returned error
wraps the failure returned by `strconv.ParseInt`, which carries, unaltered, the text that was
handed to the parser: the token without its surrounding quotes and one trailing `%` (the token
itself when it has neither); and the message is `invalid percentage: ` followed by the message
of that failure. -/
theorem UnmarshalJSON_error_content (intSize : Nat) (p0 : Percentage) (b : List Byte)
    (h : (Percentage.UnmarshalJSON intSize p0 b).2.isSome = true) :
    ∃ (err : fmt.wrapError) (k : strconv.Sentinel),
      (Percentage.UnmarshalJSON intSize p0 b).2 = some err ∧
      (strconv.ParseInt (numericText b)).2 = some err.Unwrap ∧
      err.Unwrap = { Func := "ParseInt", Num := numericText b, Err := k } ∧
      (stripQuotes b = b → endsWithPercent b = false → err.Unwrap.Num = b) ∧
      (∀ w, err.Error w = ascii "invalid percentage: " ++ err.Unwrap.Error w) ∧
      (∀ w, err.Unwrap.Error w
        = ascii "strconv.ParseInt: parsing " ++ strconv.Quote w (numericText b) ++ ascii ": "
          ++ k.Error) := by
  have hacc : ¬ (isSignedDecimal (numericText b) = true ∧
      inSigned 64 (signedDecimalValue (numericText b))) := by
    intro hacc
    rw [UnmarshalJSON_accept intSize p0 b hacc.1 hacc.2] at h
    simp at h
  obtain ⟨k, hk⟩ := UnmarshalJSON_reject intSize p0 b hacc
  have hP : (strconv.ParseInt (numericText b)).2
      = some { Func := "ParseInt", Num := numericText b, Err := k } := by
    have hU := UnmarshalJSON_eq intSize p0 b
    rw [hk] at hU
    rcases hp : strconv.ParseInt (numericText b) with ⟨v, _ | e⟩
    · rw [hp] at hU
      simp at hU
    · rw [hp] at hU
      simp only [Prod.mk.injEq, Option.some.injEq, fmt.Errorf, fmt.wrapError.mk.injEq,
        true_and] at hU
      rw [hU]
  refine ⟨fmt.Errorf { Func := "ParseInt", Num := numericText b, Err := k }, k, ?_, hP, rfl,
    ?_, fun _ => rfl, fun _ => ?_⟩
  · rw [hk]
  · intro h1 h2
    show numericText b = b
    unfold numericText
    rw [h2, h1]
    rfl
  · have hpre : ascii "strconv." ++ ascii "ParseInt" ++ ascii ": " ++ ascii "parsing "
        = ascii "strconv.ParseInt: parsing " := by decide
    show ascii "strconv." ++ ascii "ParseInt" ++ ascii ": " ++ ascii "parsing "
        ++ strconv.Quote _ (numericText b) ++ ascii ": " ++ k.Error = _
    rw [hpre]

theorem UnmarshalJSON_error_content_witness :
    (Percentage.UnmarshalJSON 64 ⟨0, false⟩ (ascii "\"+4 2%\"")).2.isSome = true ∧
    ∃ (err : fmt.wrapError) (k : strconv.Sentinel),
      (Percentage.UnmarshalJSON 64 ⟨0, false⟩ (ascii "\"+4 2%\"")).2 = some err ∧
      (strconv.ParseInt (numericText (ascii "\"+4 2%\""))).2 = some err.Unwrap ∧
      err.Unwrap
        = { Func := "ParseInt", Num := numericText (ascii "\"+4 2%\""), Err := k } ∧
      (stripQuotes (ascii "\"+4 2%\"") = ascii "\"+4 2%\"" →
        endsWithPercent (ascii "\"+4 2%\"") = false →
        err.Unwrap.Num = ascii "\"+4 2%\"") ∧
      (∀ w, err.Error w = ascii "invalid percentage: " ++ err.Unwrap.Error w) ∧
      (∀ w, err.Unwrap.Error w
        = ascii "strconv.ParseInt: parsing "
          ++ strconv.Quote w (numericText (ascii "\"+4 2%\"")) ++ ascii ": " ++ k.Error) :=
  ⟨by decide,
   UnmarshalJSON_error_content 64 ⟨0, false⟩ (ascii "\"+4 2%\"") (by decide)⟩

end Pipecd
